import Mathlib

/-!
Verification development for the graphql-codegen fragments plugin.

The definitions below are a shallow embedding of the plugin's source:
  - `src/src/fragments-plugin.ts` (and its `.cjs` twin): `unwrap`, `toTsName`,
    `buildMapForType`, `collectDeps`, `topoOrder`;
  - the runtime helpers file: `renderGqlBody`, `renderQueryFlags`,
    `renderGqlQuery`, `analyzeSchemaFlags`.

JavaScript `Map`/`Set` values are modelled as insertion-ordered association
lists / duplicate-free lists, since the source relies on insertion-order
iteration.  JavaScript runtime values reaching the renderer are modelled by
the inductive type `JSValue`.
-/

/-- Insertion-ordered string-keyed map, the model of a JS `Map` (and of plain
objects used as records). -/
abbrev SMap (α : Type) := List (String × α)

/-- First value stored under a key (JS `Map.get` / property access). -/
def mfind {α : Type} : SMap α → String → Option α
  | [], _ => none
  | (k, v) :: rest, q => if k = q then some v else mfind rest q

/-- JS `Map.has`. -/
def mhas {α : Type} (m : SMap α) (q : String) : Bool := (mfind m q).isSome

/-- JS `Map.set`: replace in place, or append a fresh key at the end. -/
def mset {α : Type} : SMap α → String → α → SMap α
  | [], q, v => [(q, v)]
  | (k, w) :: rest, q, v => if k = q then (k, v) :: rest else (k, w) :: mset rest q v

/-- Lookup with a default (the JS `map.get(k) || d` idiom). -/
def mgetD {α : Type} (m : SMap α) (q : String) (d : α) : α := (mfind m q).getD d

/-- Keys in insertion order (JS `Map.keys()`). -/
def mkeys {α : Type} (m : SMap α) : List String := m.map Prod.fst

/-- JS `Set.add` on an insertion-ordered duplicate-free list. -/
def addUniq (l : List String) (x : String) : List String :=
  if x ∈ l then l else l ++ [x]

@[simp] theorem mfind_nil {α : Type} (q : String) : mfind ([] : SMap α) q = none := rfl

@[simp] theorem mfind_cons {α : Type} (k : String) (v : α) (rest : SMap α) (q : String) :
    mfind ((k, v) :: rest) q = if k = q then some v else mfind rest q := rfl

@[simp] theorem mset_nil {α : Type} (q : String) (v : α) : mset ([] : SMap α) q v = [(q, v)] := rfl

@[simp] theorem mset_cons {α : Type} (k : String) (w : α) (rest : SMap α) (q : String) (v : α) :
    mset ((k, w) :: rest) q v =
      if k = q then (k, v) :: rest else (k, w) :: mset rest q v := rfl

theorem mfind_mset_self {α : Type} (m : SMap α) (k : String) (v : α) :
    mfind (mset m k v) k = some v := by
  induction m with
  | nil => simp
  | cons p rest ih =>
    obtain ⟨k', w⟩ := p
    by_cases h : k' = k <;> simp [h, ih]

theorem mfind_mset_ne {α : Type} (m : SMap α) (k q : String) (v : α) (h : k ≠ q) :
    mfind (mset m k v) q = mfind m q := by
  induction m with
  | nil => simp [h]
  | cons p rest ih =>
    obtain ⟨k', w⟩ := p
    by_cases h' : k' = k
    · subst h'; simp [h]
    · simp [h', ih]

theorem mgetD_mset_self {α : Type} (m : SMap α) (k : String) (v d : α) :
    mgetD (mset m k v) k d = v := by
  simp [mgetD, mfind_mset_self]

theorem mgetD_mset_ne {α : Type} (m : SMap α) (k q : String) (v d : α) (h : k ≠ q) :
    mgetD (mset m k v) q d = mgetD m q d := by
  simp [mgetD, mfind_mset_ne _ _ _ _ h]

@[simp] theorem mkeys_nil {α : Type} : mkeys ([] : SMap α) = [] := rfl

@[simp] theorem mkeys_cons {α : Type} (k : String) (v : α) (rest : SMap α) :
    mkeys ((k, v) :: rest) = k :: mkeys rest := rfl

theorem mkeys_mset_of_mem {α : Type} (m : SMap α) (k : String) (v : α) (h : k ∈ mkeys m) :
    mkeys (mset m k v) = mkeys m := by
  induction m with
  | nil => simp at h
  | cons p rest ih =>
    obtain ⟨k', w⟩ := p
    by_cases h' : k' = k
    · simp [h']
    · simp only [mkeys_cons, List.mem_cons] at h
      rcases h with h | h
      · exact absurd h.symm h'
      · simp [h', ih h]

theorem mkeys_mset_of_not_mem {α : Type} (m : SMap α) (k : String) (v : α) (h : k ∉ mkeys m) :
    mkeys (mset m k v) = mkeys m ++ [k] := by
  induction m with
  | nil => simp
  | cons p rest ih =>
    obtain ⟨k', w⟩ := p
    simp only [mkeys_cons, List.mem_cons] at h
    push_neg at h
    simp [Ne.symm h.1, ih h.2]

theorem mem_mkeys_mset {α : Type} (m : SMap α) (k q : String) (v : α) :
    q ∈ mkeys (mset m k v) ↔ q ∈ mkeys m ∨ q = k := by
  by_cases h : k ∈ mkeys m
  · rw [mkeys_mset_of_mem _ _ _ h]
    constructor
    · exact Or.inl
    · rintro (hq | rfl) <;> [exact hq; exact h]
  · rw [mkeys_mset_of_not_mem _ _ _ h]
    simp

theorem mkeys_mset_nodup {α : Type} (m : SMap α) (k : String) (v : α)
    (h : (mkeys m).Nodup) : (mkeys (mset m k v)).Nodup := by
  by_cases hk : k ∈ mkeys m
  · rwa [mkeys_mset_of_mem _ _ _ hk]
  · rw [mkeys_mset_of_not_mem _ _ _ hk]
    simpa [List.nodup_append] using ⟨h, hk⟩

theorem mfind_isSome_iff_mem_mkeys {α : Type} (m : SMap α) (q : String) :
    (mfind m q).isSome ↔ q ∈ mkeys m := by
  induction m with
  | nil => simp
  | cons p rest ih =>
    obtain ⟨k, v⟩ := p
    by_cases h : k = q
    · subst h; simp
    · rw [mfind_cons, if_neg h, ih]
      constructor
      · intro hq
        exact List.mem_cons_of_mem _ hq
      · intro hq
        rcases List.mem_cons.mp hq with hq | hq
        · exact absurd hq.symm h
        · exact hq

theorem mfind_eq_some_of_mem {α : Type} (m : SMap α) (k : String) (v : α)
    (hnd : (mkeys m).Nodup) (h : (k, v) ∈ m) : mfind m k = some v := by
  induction m with
  | nil => simp at h
  | cons p rest ih =>
    obtain ⟨k', w⟩ := p
    simp only [mkeys_cons, List.nodup_cons] at hnd
    rcases List.mem_cons.mp h with h | h
    · injection h with h1 h2
      subst h1; subst h2
      simp
    · have hk : k' ≠ k := by
        intro he
        apply hnd.1
        have : (k, v).fst ∈ mkeys rest := List.mem_map_of_mem Prod.fst h
        exact he ▸ this
      simp [hk, ih hnd.2 h]

theorem mfind_eq_some_mem {α : Type} (m : SMap α) (k : String) (v : α)
    (h : mfind m k = some v) : (k, v) ∈ m := by
  induction m with
  | nil => simp at h
  | cons p rest ih =>
    obtain ⟨k', w⟩ := p
    by_cases hk : k' = k
    · subst hk
      simp at h
      simp [h]
    · simp [hk] at h
      exact List.mem_cons_of_mem _ (ih h)

theorem mem_addUniq (l : List String) (x y : String) :
    y ∈ addUniq l x ↔ y ∈ l ∨ y = x := by
  unfold addUniq
  by_cases h : x ∈ l
  · simp only [if_pos h]
    constructor
    · exact Or.inl
    · rintro (hy | rfl) <;> [exact hy; exact h]
  · simp [if_neg h]

theorem addUniq_nodup (l : List String) (x : String) (h : l.Nodup) :
    (addUniq l x).Nodup := by
  unfold addUniq
  by_cases hx : x ∈ l
  · simpa [hx]
  · simpa [hx, List.nodup_append] using h

theorem addUniq_sub (l : List String) (x : String) : l ⊆ addUniq l x := by
  intro y hy
  exact (mem_addUniq l x y).2 (Or.inl hy)

theorem mem_addUniq_self (l : List String) (x : String) : x ∈ addUniq l x :=
  (mem_addUniq l x x).2 (Or.inr rfl)

/-!
Section: Schema data model

A loaded GraphQL schema, as observed by the plugin: a type map (name to type
definition, in registration order), plus optional root query/mutation type
names.  A named type has a kind (`isScalarType` / `isEnumType` /
`isObjectType` discriminate the first three; unions, interfaces and input
types all fall in the remaining bucket `other`) and, for object types, an
ordered field list.  A field's declared type may be wrapped in non-null and
list modifiers.
-/

/-- Type wrappers: a named type reference under zero or more `GraphQLNonNull`
and `GraphQLList` wrappers. -/
inductive WrapType where
  | named (name : String)
  | nonNull (inner : WrapType)
  | listOf (inner : WrapType)
deriving DecidableEq, Repr

/-- Model of `unwrap` from the source: strip all non-null/list wrappers and return the
underlying named type('s name). -/
def unwrapName : WrapType → String
  | .named n => n
  | .nonNull t => unwrapName t
  | .listOf t => unwrapName t

/-- Kind tag of a named type. `other` covers union/interface/input types:
everything for which `isScalarType`, `isEnumType` and `isObjectType` are all
false. -/
inductive TypeKind where
  | scalar
  | enum
  | object
  | other
deriving DecidableEq, Repr

/-- A field: its declared (possibly wrapped) type and its argument list
(argument name, argument declared type). -/
structure GField where
  ftype : WrapType
  args : List (String × WrapType)
deriving DecidableEq, Repr

/-- A named type definition: kind and (for object types) ordered fields. -/
structure TypeDef where
  kind : TypeKind
  fields : List (String × GField)
deriving DecidableEq, Repr

/-- The loaded schema: `getTypeMap()` plus `getQueryType()`/`getMutationType()`
(represented by the root types' names). -/
structure SchemaM where
  typeMap : SMap TypeDef
  queryType : Option String
  mutationType : Option String
deriving DecidableEq, Repr

/-- Kind of the named type `n` in the schema's type map. -/
def lookupKind (tm : SMap TypeDef) (n : String) : Option TypeKind :=
  (mfind tm n).map TypeDef.kind

/-- Model of `t.getFields()` for the named type `t` (empty when the name does not
resolve, which cannot happen for a well-formed loaded schema). -/
def fieldsOf (tm : SMap TypeDef) (t : String) : List (String × GField) :=
  match mfind tm t with
  | some td => td.fields
  | none => []

/-- Plugin configuration, as consumed by `toTsName`: the `rename` record and
the `namingConvention` string.  The `pascalCase` function comes from the
external change-case library (out of scope per the spec, injected here). -/
structure Config where
  rename : SMap String
  namingConvention : Option String
  pascalCase : String → String

/-- Model of `toTsName` from the source: rename override first, then the naming
convention (default: pascalCase). -/
def toTsName (cfg : Config) (name : String) : String :=
  match mfind cfg.rename name with
  | some v => v
  | none =>
    match cfg.namingConvention with
    | some conv =>
      if conv = "keep" then name
      else cfg.pascalCase name
    | none => cfg.pascalCase name

/-- The `name.startsWith('__')` test used to skip introspection-reserved
names, expressed over the string's characters. -/
def startsDunder (s : String) : Bool :=
  match s.toList with
  | '_' :: '_' :: _ => true
  | _ => false

/-- One element of a selection descriptor produced by `buildMapForType`:
a bare field name, a single-key object whose value is a `ref` marker, or a
single-key object whose value is a nested descriptor array. -/
inductive MapNode where
  | bare (name : String)
  | refEntry (key : String) (refName : String)
  | nested (key : String) (children : List MapNode)
deriving Repr

/-- Construction mode of `buildMapForType`. -/
inductive Mode where
  | parent
  | sub
deriving DecidableEq, Repr

/-- The per-field loop body of `buildMapForType`, recursing over the field
list; the depth budget decreases on the single recursive inline expansion
(`mode = sub`, `allowRefs = false`, `maxDepth > 1`). -/
def buildMapFields (tm : SMap TypeDef) (cfg : Config) :
    Nat → List (String × GField) → Mode → Bool → List MapNode
  | _, [], _, _ => []
  | maxDepth, (name, fld) :: rest, mode, allowRefs =>
    let tail := buildMapFields tm cfg maxDepth rest mode allowRefs
    if startsDunder name then tail
    else
      let ftName := unwrapName fld.ftype
      match lookupKind tm ftName with
      | some TypeKind.scalar => MapNode.bare name :: tail
      | some TypeKind.enum => MapNode.bare name :: tail
      | some TypeKind.object =>
        match mode with
        | Mode.parent => MapNode.refEntry name (toTsName cfg ftName ++ "Map") :: tail
        | Mode.sub =>
          if allowRefs then MapNode.refEntry name (toTsName cfg ftName ++ "Map") :: tail
          else if h : maxDepth > 1 then
            MapNode.nested name
              (buildMapFields tm cfg (maxDepth - 1) (fieldsOf tm ftName) Mode.sub allowRefs)
              :: tail
          else MapNode.bare name :: tail
      | _ => MapNode.bare name :: tail
termination_by d fs _ _ => (d, fs.length)
decreasing_by
  all_goals simp_wf
  · exact Prod.Lex.right _ (Nat.lt_succ_self _)
  · exact Prod.Lex.left _ _ (Nat.sub_lt (Nat.lt_of_lt_of_le Nat.one_pos (Nat.le_of_lt h)) Nat.one_pos)

/-- Model of `buildMapForType` from the source. -/
def buildMapForType (tm : SMap TypeDef) (cfg : Config) (t : String) (maxDepth : Nat)
    (mode : Mode) (allowRefs : Bool) : List MapNode :=
  buildMapFields tm cfg maxDepth (fieldsOf tm t) mode allowRefs

/-- The field name a descriptor element selects (the bare name, or the single
key of the mapping). -/
def nodeName : MapNode → String
  | .bare n => n
  | .refEntry k _ => k
  | .nested k _ => k

/-!
Section: Dependency graph and topological order (Kahn)

`collectDeps` records, for every composite-typed field on an object type
`name` targeting `dep`, the edge `dep -> name` ("dep before name").
`topoOrder` is the in-degree-counting traversal with the cycle fallback that
appends all not-yet-output nodes in discovery order.  The JS `while (q.length)`
loop is modelled with an explicit fuel that is large enough for the loop to
always run until the queue empties (each node is dequeued at most once, and a
node is enqueued only when its counter reaches exactly 0, which happens at
most once per node; the chosen fuel bounds the number of enqueues by the
initial queue length plus the total size of all adjacency sets).
-/

/-- Process one field of the type named `tname`: if the field's unwrapped
target is an object type, record the edge `dep -> tname`. -/
def collectDepsField (tm : SMap TypeDef) (tname : String) (deps : SMap (List String))
    (f : String × GField) : SMap (List String) :=
  let dep := unwrapName f.2.ftype
  if lookupKind tm dep = some TypeKind.object then
    let deps := if mhas deps dep then deps else mset deps dep []
    mset deps dep (addUniq (mgetD deps dep []) tname)
  else deps

/-- Process one entry of the type map in `collectDeps`. -/
def collectDepsEntry (tm : SMap TypeDef) (deps : SMap (List String))
    (e : String × TypeDef) : SMap (List String) :=
  if e.2.kind ≠ TypeKind.object ∨ startsDunder e.1 then deps
  else
    let deps := if mhas deps e.1 then deps else mset deps e.1 []
    e.2.fields.foldl (collectDepsField tm e.1) deps

/-- Model of `collectDeps` from the source. -/
def collectDeps (s : SchemaM) : SMap (List String) :=
  s.typeMap.foldl (collectDepsEntry s.typeMap) []

/-- Inner loop of the first phase of `topoOrder`: for each `m` in the set of
the entry `n`, bump `m`'s in-degree and add `m` to `adj[n]`; create missing
(empty) entries for `m`. -/
def initTarget (n : String) (st : SMap Int × SMap (List String)) (m : String) :
    SMap Int × SMap (List String) :=
  let inDeg := mset st.1 m (mgetD st.1 m 0 + 1)
  let adj := mset st.2 n (addUniq (mgetD st.2 n []) m)
  let inDeg := if mhas inDeg m then inDeg else mset inDeg m 0
  let adj := if mhas adj m then adj else mset adj m []
  (inDeg, adj)

/-- One entry of the first phase of `topoOrder`. -/
def initEntry (st : SMap Int × SMap (List String)) (e : String × List String) :
    SMap Int × SMap (List String) :=
  let inDeg := if mhas st.1 e.1 then st.1 else mset st.1 e.1 0
  let adj := if mhas st.2 e.1 then st.2 else mset st.2 e.1 []
  e.2.foldl (initTarget e.1) (inDeg, adj)

/-- First phase of `topoOrder`: build the in-degree map and adjacency map. -/
def initState (deps : SMap (List String)) : SMap Int × SMap (List String) :=
  deps.foldl initEntry ([], [])

/-- Decrement the in-degrees of every dependent `m` of the freshly output
node, enqueueing those whose counter reaches 0 (reading the counter back
after the write, as the source does). -/
def stepNeighbors : List String → SMap Int → List String → SMap Int × List String
  | [], inDeg, q => (inDeg, q)
  | m :: ms, inDeg, q =>
    let d := mgetD inDeg m 0 - 1
    let inDeg := mset inDeg m d
    let q := if d = 0 then q ++ [m] else q
    stepNeighbors ms inDeg q

/-- The `while (q.length)` loop of `topoOrder`, with explicit fuel. -/
def kahnLoop (adj : SMap (List String)) :
    Nat → List String → SMap Int → List String → List String × SMap Int
  | 0, _, inDeg, out => (out, inDeg)
  | _ + 1, [], inDeg, out => (out, inDeg)
  | fuel + 1, n :: q, inDeg, out =>
    let st := stepNeighbors (mgetD adj n []) inDeg q
    kahnLoop adj fuel st.2 st.1 (out ++ [n])

/-- Total size of all adjacency sets (used only to size the loop fuel). -/
def adjWeight (adj : SMap (List String)) : Nat :=
  adj.foldl (fun a p => a + p.2.length) 0

/-- Cycle fallback: append every key not yet present in the output, in
discovery order. -/
def appendMissing (keys : List String) (out : List String) : List String :=
  keys.foldl (fun out n => if n ∈ out then out else out ++ [n]) out

/-- The queue that phase two of `topoOrder` starts from: all keys of
in-degree 0, in insertion order. -/
def initQueue (inDeg : SMap Int) : List String :=
  (inDeg.filter (fun p => p.2 = 0)).map Prod.fst

/-- Model of `topoOrder` from the source. -/
def topoOrder (deps : SMap (List String)) : List String :=
  let st := initState deps
  let q := initQueue st.1
  let res := kahnLoop st.2 (q.length + adjWeight st.2 + 1) q st.1 []
  if res.1.length < (mkeys res.2).length then appendMissing (mkeys res.2) res.1
  else res.1

/-- The portion of `topoOrder`'s output produced by the queue-driven (Kahn)
phase, before the cycle fallback. -/
def kahnPhaseOut (deps : SMap (List String)) : List String :=
  let st := initState deps
  let q := initQueue st.1
  (kahnLoop st.2 (q.length + adjWeight st.2 + 1) q st.1 []).1

/-!
Section: Runtime values and the query renderer

`JSValue` models the JavaScript values that can reach the runtime helpers:
the absent sentinel `undefined`, `null`, booleans, (integer) numbers,
strings, arrays, plain objects, and functions.  `jsToString` is JS string
coercion `String(v)` (for a function value the coercion is its source text,
modelled by a fixed non-empty string); `joinElems` is the element coercion
of `Array.prototype.join`, which maps `null`/`undefined` to the empty
string; `jsonStringify` models `JSON.stringify`, returning `none` where JS
returns `undefined`.
-/

/-- A JavaScript runtime value. -/
inductive JSValue where
  | undef
  | null
  | bool (b : Bool)
  | num (n : Int)
  | str (s : String)
  | arr (elems : List JSValue)
  | obj (props : List (String × JSValue))
  | func
deriving Repr

mutual

/-- JS string coercion `String(v)`. -/
def jsToString : JSValue → String
  | .undef => "undefined"
  | .null => "null"
  | .bool true => "true"
  | .bool false => "false"
  | .num n => toString n
  | .str s => s
  | .arr vs => String.intercalate "," (joinElems vs)
  | .obj _ => "[object Object]"
  | .func => "function () \x7b\x7d"

/-- Element coercion of `Array.prototype.join`: like `String`, except that
`null` and `undefined` become the empty string. -/
def joinElems : List JSValue → List String
  | [] => []
  | .undef :: rest => "" :: joinElems rest
  | .null :: rest => "" :: joinElems rest
  | v :: rest => jsToString v :: joinElems rest

end

/-- JSON string quoting (escaping of the characters JSON.stringify escapes
in ordinary strings). -/
def jsonEscapeChar (c : Char) : String :=
  if c = '"' then "\\\""
  else if c = '\\' then "\\\\"
  else if c = '\n' then "\\n"
  else if c = '\r' then "\\r"
  else if c = '\t' then "\\t"
  else String.singleton c

/-- JSON quoting of a string value. -/
def jsonQuote (s : String) : String :=
  "\"" ++ String.join (s.toList.map jsonEscapeChar) ++ "\""

mutual

/-- Model of `JSON.stringify`: `none` models the JS result `undefined` (for
`undefined` and function values). -/
def jsonStringify : JSValue → Option String
  | .undef => none
  | .func => none
  | .null => some "null"
  | .bool true => some "true"
  | .bool false => some "false"
  | .num n => some (toString n)
  | .str s => some (jsonQuote s)
  | .arr vs => some ("[" ++ String.intercalate "," (jsonElems vs) ++ "]")
  | .obj ps => some ("\x7b" ++ String.intercalate "," (jsonProps ps) ++ "\x7d")

/-- Array elements under `JSON.stringify`: unserializable elements become
the literal `null`. -/
def jsonElems : List JSValue → List String
  | [] => []
  | v :: rest => (jsonStringify v).getD "null" :: jsonElems rest

/-- Object properties under `JSON.stringify`: unserializable values are
skipped. -/
def jsonProps : List (String × JSValue) → List String
  | [] => []
  | (k, v) :: rest =>
    match jsonStringify v with
    | some s => (jsonQuote k ++ ":" ++ s) :: jsonProps rest
    | none => jsonProps rest

end

/-- JS truthiness. -/
def jsTruthy : JSValue → Bool
  | .undef => false
  | .null => false
  | .bool b => b
  | .num n => n != 0
  | .str s => s ≠ ""
  | .arr _ => true
  | .obj _ => true
  | .func => true

/-- Model of `isSelectionObject` from the source: a non-null non-array object with
exactly one key, whose value is an array. -/
def isSelectionObject : JSValue → Bool
  | .obj [(_, .arr _)] => true
  | _ => false

/-- The `child as string` coercion performed by `Array.prototype.join(' ')`
on a non-selection-object child. -/
def joinCast : JSValue → String
  | .undef => ""
  | .null => ""
  | v => jsToString v

mutual

/-- Model of `renderGqlBody` from the source: a single-key mapping to an array
renders as the key followed by its brace-wrapped, space-joined children;
anything else renders as the leaf `String(e ?? '')`. -/
def renderGqlBody : JSValue → String
  | .obj [(k, .arr children)] =>
    k ++ " \x7b " ++ String.intercalate " " (renderChildren children) ++ " \x7d"
  | .undef => ""
  | .null => ""
  | e => jsToString e

/-- The `children.map(...)` of `renderGqlBody`. -/
def renderChildren : List JSValue → List String
  | [] => []
  | c :: rest =>
    (if isSelectionObject c then renderGqlBody c else joinCast c) :: renderChildren rest

end

/-- Model of `renderQueryFlags` from the source: an array renders as a bracketed
comma-join; anything else is returned unchanged. -/
def renderQueryFlags : JSValue → JSValue
  | .arr vs => .str ("[" ++ String.intercalate "," (joinElems vs) ++ "]")
  | v => v

/-- The body of `renderGqlQuery`'s reduce for one key: skip `undefined`
values; classify the value as flag / enum / plain JSON; keep the fragment
only if the rendered value is truthy. -/
def renderPart (queryFlags queryEnums : List String) (name : String) (v : JSValue) :
    Option String :=
  match v with
  | JSValue.undef => none
  | v =>
    let val := if name ∈ queryFlags then renderQueryFlags v
               else if name ∈ queryEnums then JSValue.str (jsToString v)
               else match jsonStringify v with
                    | some s => JSValue.str s
                    | none => JSValue.undef
    if jsTruthy val then some (name ++ ":" ++ jsToString val) else none

/-- The reduce of `renderGqlQuery`, accumulating `name:value` fragments. -/
def renderParts (queryFlags queryEnums : List String)
    (ps : List (String × JSValue)) : List String :=
  ps.foldl (fun acc p =>
    match renderPart queryFlags queryEnums p.1 p.2 with
    | some s => acc ++ [s]
    | none => acc) []

/-- Model of `renderGqlQuery` from the source.  The module-level `queryFlags` and
`queryEnums` classification sets are passed explicitly. -/
def renderGqlQuery (queryFlags queryEnums : List String)
    (params : Option (List (String × JSValue))) : String :=
  match params with
  | none => ""
  | some ps =>
    if ps.length = 0 then ""
    else
      let parts := renderParts queryFlags queryEnums ps
      if parts.length ≠ 0 then "(" ++ String.intercalate " " parts ++ ")" else ""

/-- Initial value of the module-level `queryFlags` state. -/
def defaultQueryFlags : List String := ["flags", "type"]

/-- Initial value of the module-level `queryEnums` state. -/
def defaultQueryEnums : List String := ["sectionType"]

/-!
Section: Flag classification (`analyzeSchemaFlags`)
-/

/-- The fixed default flag-name list of `analyzeSchemaFlags`. -/
def commonFlagNames : List String := ["flags", "type", "status", "mode", "kind"]

/-- The five built-in primitive scalars. -/
def builtinScalars : List String := ["String", "Int", "Float", "Boolean", "ID"]

/-- Model of `[schema.getQueryType(), schema.getMutationType()].filter(Boolean)`. -/
def rootTypes (s : SchemaM) : List TypeDef :=
  ([s.queryType, s.mutationType]).filterMap (fun o => o.bind (mfind s.typeMap))

/-- One argument step of `analyzeSchemaFlags`: a custom (non-built-in)
scalar argument name is added to the flags set. -/
def analyzeFlagsArg (tm : SMap TypeDef) (flags : List String) (a : String × WrapType) :
    List String :=
  let argT := unwrapName a.2
  if lookupKind tm argT = some TypeKind.scalar ∧ argT ∉ builtinScalars then
    addUniq flags a.1
  else flags

/-- Model of `analyzeSchemaFlags` from the source. -/
def analyzeSchemaFlags (s : SchemaM) (customFlagTypes : List String) : List String :=
  let flags := customFlagTypes.foldl addUniq []
  let flags := commonFlagNames.foldl addUniq flags
  (rootTypes s).foldl (fun flags rt =>
    rt.fields.foldl (fun flags f =>
      f.2.args.foldl (analyzeFlagsArg s.typeMap) flags) flags) flags

/-!
Section: Lemmas about `buildMapForType`
-/

/-- The descriptor elements contributed by one field of the loop in
`buildMapForType` (one unfolding step of `buildMapFields`, split out for
equational reasoning). -/
def fieldHead (tm : SMap TypeDef) (cfg : Config) (d : Nat) (mode : Mode) (ar : Bool)
    (name : String) (fld : GField) : List MapNode :=
  if startsDunder name then []
  else
    match lookupKind tm (unwrapName fld.ftype) with
    | some TypeKind.scalar => [MapNode.bare name]
    | some TypeKind.enum => [MapNode.bare name]
    | some TypeKind.object =>
      match mode with
      | Mode.parent => [MapNode.refEntry name (toTsName cfg (unwrapName fld.ftype) ++ "Map")]
      | Mode.sub =>
        if ar then [MapNode.refEntry name (toTsName cfg (unwrapName fld.ftype) ++ "Map")]
        else if d > 1 then
          [MapNode.nested name (buildMapForType tm cfg (unwrapName fld.ftype) (d - 1) Mode.sub ar)]
        else [MapNode.bare name]
    | _ => [MapNode.bare name]

theorem buildMapFields_nil (tm : SMap TypeDef) (cfg : Config) (d : Nat) (mode : Mode)
    (ar : Bool) : buildMapFields tm cfg d [] mode ar = [] := by
  simp [buildMapFields]

theorem buildMapFields_cons (tm : SMap TypeDef) (cfg : Config) (d : Nat) (name : String)
    (fld : GField) (rest : List (String × GField)) (mode : Mode) (ar : Bool) :
    buildMapFields tm cfg d ((name, fld) :: rest) mode ar =
      fieldHead tm cfg d mode ar name fld ++ buildMapFields tm cfg d rest mode ar := by
  rw [buildMapFields, fieldHead.eq_def, buildMapForType]
  by_cases h : startsDunder name
  · simp [h]
  · simp only [h, if_false, Bool.false_eq_true]
    cases hk : lookupKind tm (unwrapName fld.ftype) with
    | none => simp
    | some k =>
      cases k with
      | scalar => simp
      | enum => simp
      | other => simp
      | object =>
        cases mode with
        | parent => simp
        | sub =>
          by_cases har : ar
          · simp [har]
          · simp only [har, if_false, Bool.false_eq_true]
            by_cases hd : d > 1
            · simp [hd]
            · simp [hd]

theorem mem_fieldHead_name (tm : SMap TypeDef) (cfg : Config) (d : Nat) (mode : Mode)
    (ar : Bool) (name : String) (fld : GField) (e : MapNode)
    (h : e ∈ fieldHead tm cfg d mode ar name fld) :
    nodeName e = name ∧ startsDunder name = false := by
  unfold fieldHead at h
  by_cases hp : startsDunder name
  · simp [hp] at h
  · refine ⟨?_, by simp [hp]⟩
    simp only [hp, if_false, Bool.false_eq_true] at h
    cases hk : lookupKind tm (unwrapName fld.ftype) with
    | none => rw [hk] at h; simp at h; simp [h, nodeName]
    | some k =>
      rw [hk] at h
      cases k with
      | scalar => simp at h; simp [h, nodeName]
      | enum => simp at h; simp [h, nodeName]
      | other => simp at h; simp [h, nodeName]
      | object =>
        cases mode with
        | parent => simp at h; simp [h, nodeName]
        | sub =>
          by_cases har : ar
          · simp [har] at h; simp [h, nodeName]
          · simp only [har, if_false, Bool.false_eq_true] at h
            by_cases hd : d > 1
            · simp [hd] at h; simp [h, nodeName]
            · simp [hd] at h; simp [h, nodeName]

theorem mem_buildMapFields_name (tm : SMap TypeDef) (cfg : Config) (d : Nat)
    (fs : List (String × GField)) (mode : Mode) (ar : Bool) (e : MapNode)
    (h : e ∈ buildMapFields tm cfg d fs mode ar) :
    ∃ p ∈ fs, nodeName e = p.1 ∧ startsDunder p.1 = false := by
  induction fs with
  | nil => rw [buildMapFields_nil] at h; simp at h
  | cons p rest ih =>
    obtain ⟨name, fld⟩ := p
    rw [buildMapFields_cons] at h
    rcases List.mem_append.mp h with h | h
    · obtain ⟨h1, h2⟩ := mem_fieldHead_name tm cfg d mode ar name fld e h
      exact ⟨(name, fld), List.mem_cons_self _ _, h1, h2⟩
    · obtain ⟨q, hq, h1, h2⟩ := ih h
      exact ⟨q, List.mem_cons_of_mem _ hq, h1, h2⟩

theorem fieldHead_sub_buildMapFields (tm : SMap TypeDef) (cfg : Config) (d : Nat)
    (fs : List (String × GField)) (mode : Mode) (ar : Bool) (name : String) (fld : GField)
    (hmem : (name, fld) ∈ fs) (e : MapNode) (he : e ∈ fieldHead tm cfg d mode ar name fld) :
    e ∈ buildMapFields tm cfg d fs mode ar := by
  induction fs with
  | nil => simp at hmem
  | cons p rest ih =>
    obtain ⟨n0, f0⟩ := p
    rw [buildMapFields_cons]
    rcases List.mem_cons.mp hmem with h | h
    · injection h with h1 h2
      subst h1; subst h2
      exact List.mem_append.mpr (Or.inl he)
    · exact List.mem_append.mpr (Or.inr (ih h))

theorem fieldHead_object_parent (tm : SMap TypeDef) (cfg : Config) (d : Nat) (ar : Bool)
    (name : String) (fld : GField) (h1 : startsDunder name = false)
    (hk : lookupKind tm (unwrapName fld.ftype) = some TypeKind.object) :
    fieldHead tm cfg d Mode.parent ar name fld =
      [MapNode.refEntry name (toTsName cfg (unwrapName fld.ftype) ++ "Map")] := by
  unfold fieldHead
  rw [hk]
  simp [h1]

theorem fieldHead_object_sub_shallow (tm : SMap TypeDef) (cfg : Config) (d : Nat)
    (name : String) (fld : GField) (h1 : startsDunder name = false)
    (hk : lookupKind tm (unwrapName fld.ftype) = some TypeKind.object) (hd : ¬ d > 1) :
    fieldHead tm cfg d Mode.sub false name fld = [MapNode.bare name] := by
  unfold fieldHead
  rw [hk]
  simp [h1, hd]

theorem fieldHead_object_sub_deep (tm : SMap TypeDef) (cfg : Config) (d : Nat)
    (name : String) (fld : GField) (h1 : startsDunder name = false)
    (hk : lookupKind tm (unwrapName fld.ftype) = some TypeKind.object) (hd : d > 1) :
    fieldHead tm cfg d Mode.sub false name fld =
      [MapNode.nested name
        (buildMapForType tm cfg (unwrapName fld.ftype) (d - 1) Mode.sub false)] := by
  unfold fieldHead
  rw [hk]
  simp [h1, hd]

theorem fieldHead_other (tm : SMap TypeDef) (cfg : Config) (d : Nat) (mode : Mode) (ar : Bool)
    (name : String) (fld : GField) (h1 : startsDunder name = false)
    (hk : lookupKind tm (unwrapName fld.ftype) = some TypeKind.other) :
    fieldHead tm cfg d mode ar name fld = [MapNode.bare name] := by
  unfold fieldHead
  rw [hk]
  simp [h1]

theorem fieldHead_shape (tm : SMap TypeDef) (cfg : Config) (d : Nat) (mode : Mode)
    (ar : Bool) (name : String) (fld : GField) (e : MapNode)
    (h : e ∈ fieldHead tm cfg d mode ar name fld) :
    e = MapNode.bare name ∨
    e = MapNode.refEntry name (toTsName cfg (unwrapName fld.ftype) ++ "Map") ∨
    (mode = Mode.sub ∧ ar = false ∧ d > 1 ∧
      e = MapNode.nested name
        (buildMapForType tm cfg (unwrapName fld.ftype) (d - 1) Mode.sub ar)) := by
  unfold fieldHead at h
  by_cases hp : startsDunder name
  · simp [hp] at h
  · simp only [hp, if_false, Bool.false_eq_true] at h
    cases hk : lookupKind tm (unwrapName fld.ftype) with
    | none => rw [hk] at h; simp at h; exact Or.inl h
    | some k =>
      rw [hk] at h
      cases k with
      | scalar => simp at h; exact Or.inl h
      | enum => simp at h; exact Or.inl h
      | other => simp at h; exact Or.inl h
      | object =>
        cases mode with
        | parent => simp at h; exact Or.inr (Or.inl h)
        | sub =>
          cases ar with
          | true => simp at h; exact Or.inr (Or.inl h)
          | false =>
            by_cases hd : d > 1
            · simp [hd] at h
              exact Or.inr (Or.inr ⟨rfl, rfl, hd, h⟩)
            · simp [hd] at h; exact Or.inl h

theorem mem_buildMapFields_unique (tm : SMap TypeDef) (cfg : Config) (d : Nat)
    (fs : List (String × GField)) (mode : Mode) (ar : Bool) (name : String) (fld : GField)
    (hnd : (fs.map Prod.fst).Nodup) (hmem : (name, fld) ∈ fs) (e : MapNode)
    (he : e ∈ buildMapFields tm cfg d fs mode ar) (hname : nodeName e = name) :
    e ∈ fieldHead tm cfg d mode ar name fld := by
  induction fs with
  | nil => simp at hmem
  | cons p rest ih =>
    obtain ⟨n0, f0⟩ := p
    simp only [List.map_cons, List.nodup_cons] at hnd
    rw [buildMapFields_cons] at he
    rcases List.mem_append.mp he with hee | hee
    · have h0 := mem_fieldHead_name tm cfg d mode ar n0 f0 e hee
      rcases List.mem_cons.mp hmem with h | h
      · injection h with h1 h2
        subst h1; subst h2
        exact hee
      · exfalso
        apply hnd.1
        have hr : name ∈ rest.map Prod.fst := by
          simpa using List.mem_map_of_mem Prod.fst h
        have hne : n0 = name := by rw [← h0.1, hname]
        rw [hne]
        exact hr
    · rcases List.mem_cons.mp hmem with h | h
      · exfalso
        injection h with h1 h2
        obtain ⟨q, hq, hq1, _⟩ := mem_buildMapFields_name tm cfg d rest mode ar e hee
        apply hnd.1
        have hqm : q.1 ∈ rest.map Prod.fst := List.mem_map_of_mem Prod.fst hq
        have hqn : q.1 = name := by rw [← hq1, hname]
        rw [← h1, ← hqn]
        exact hqm
      · exact ih hnd.2 h hee

theorem mem_buildMapFields_shape (tm : SMap TypeDef) (cfg : Config) (d : Nat)
    (fs : List (String × GField)) (mode : Mode) (ar : Bool) (e : MapNode)
    (he : e ∈ buildMapFields tm cfg d fs mode ar) :
    ∃ p ∈ fs,
      e = MapNode.bare p.1 ∨
      e = MapNode.refEntry p.1 (toTsName cfg (unwrapName p.2.ftype) ++ "Map") ∨
      (mode = Mode.sub ∧ ar = false ∧ d > 1 ∧
        e = MapNode.nested p.1
          (buildMapForType tm cfg (unwrapName p.2.ftype) (d - 1) Mode.sub ar)) := by
  induction fs with
  | nil => rw [buildMapFields_nil] at he; simp at he
  | cons p rest ih =>
    obtain ⟨name, fld⟩ := p
    rw [buildMapFields_cons] at he
    rcases List.mem_append.mp he with hee | hee
    · exact ⟨(name, fld), List.mem_cons_self _ _,
        fieldHead_shape tm cfg d mode ar name fld e hee⟩
    · obtain ⟨q, hq, hsh⟩ := ih hee
      exact ⟨q, List.mem_cons_of_mem _ hq, hsh⟩

/-- Claim C5: every element of any descriptor `buildMapForType` produces for a
type selects a field actually declared on that type, and never one whose name
starts with a double underscore. -/
theorem claim5_descriptor_soundness (tm : SMap TypeDef) (cfg : Config) (t : String)
    (d : Nat) (mode : Mode) (ar : Bool) (e : MapNode)
    (he : e ∈ buildMapForType tm cfg t d mode ar) :
    nodeName e ∈ (fieldsOf tm t).map Prod.fst ∧ startsDunder (nodeName e) = false := by
  obtain ⟨p, hp, h1, h2⟩ := mem_buildMapFields_name tm cfg d (fieldsOf tm t) mode ar e he
  constructor
  · rw [h1]
    exact List.mem_map_of_mem Prod.fst hp
  · rw [h1]
    exact h2

/-- Claim C3: in parent (root) mode, an object-typed field is always emitted
as a single-key mapping to the reference marker naming the target type's
submodel descriptor, and is never expanded inline, regardless of depth. -/
theorem claim3_parent_always_refs (tm : SMap TypeDef) (cfg : Config) (t : String)
    (d : Nat) (ar : Bool) (fname : String) (gf : GField)
    (hmem : (fname, gf) ∈ fieldsOf tm t)
    (h1 : startsDunder fname = false)
    (hk : lookupKind tm (unwrapName gf.ftype) = some TypeKind.object) :
    MapNode.refEntry fname (toTsName cfg (unwrapName gf.ftype) ++ "Map")
        ∈ buildMapForType tm cfg t d Mode.parent ar
      ∧ ∀ k ch, MapNode.nested k ch ∉ buildMapForType tm cfg t d Mode.parent ar := by
  constructor
  · apply fieldHead_sub_buildMapFields tm cfg d (fieldsOf tm t) Mode.parent ar fname gf hmem
    rw [fieldHead_object_parent tm cfg d ar fname gf h1 hk]
    simp
  · intro k ch hin
    obtain ⟨p, _, hsh⟩ := mem_buildMapFields_shape tm cfg d (fieldsOf tm t) Mode.parent ar _ hin
    rcases hsh with h | h | h
    · exact MapNode.noConfusion h
    · exact MapNode.noConfusion h
    · exact Mode.noConfusion h.1

/-- Claim C4: in inline-fallback construction (sub mode, `allowRefs = false`),
an object-typed field at depth budget exactly 1 is emitted as a bare name with
no nested children, and at budget greater than 1 as a nested descriptor built
recursively with the budget decremented by one. -/
theorem claim4_depth_budget (tm : SMap TypeDef) (cfg : Config) (t : String)
    (fname : String) (gf : GField)
    (hmem : (fname, gf) ∈ fieldsOf tm t)
    (h1 : startsDunder fname = false)
    (hk : lookupKind tm (unwrapName gf.ftype) = some TypeKind.object) :
    (MapNode.bare fname ∈ buildMapForType tm cfg t 1 Mode.sub false
      ∧ ∀ k ch, MapNode.nested k ch ∉ buildMapForType tm cfg t 1 Mode.sub false)
    ∧ ∀ d : Nat, 1 < d →
        MapNode.nested fname
          (buildMapForType tm cfg (unwrapName gf.ftype) (d - 1) Mode.sub false)
          ∈ buildMapForType tm cfg t d Mode.sub false := by
  refine ⟨⟨?_, ?_⟩, ?_⟩
  · apply fieldHead_sub_buildMapFields tm cfg 1 (fieldsOf tm t) Mode.sub false fname gf hmem
    rw [fieldHead_object_sub_shallow tm cfg 1 fname gf h1 hk (by omega)]
    simp
  · intro k ch hin
    obtain ⟨p, _, hsh⟩ := mem_buildMapFields_shape tm cfg 1 (fieldsOf tm t) Mode.sub false _ hin
    rcases hsh with h | h | h
    · exact MapNode.noConfusion h
    · exact MapNode.noConfusion h
    · omega
  · intro d hd
    apply fieldHead_sub_buildMapFields tm cfg d (fieldsOf tm t) Mode.sub false fname gf hmem
    rw [fieldHead_object_sub_deep tm cfg d fname gf h1 hk hd]
    simp

/-- Claim C9: a field whose unwrapped target is neither a leaf nor an object
type (a union or interface) is emitted as a bare field name, with no nested
selection and no reference marker, in every mode and at every depth budget. -/
theorem claim9_opaque_composite_bare (tm : SMap TypeDef) (cfg : Config) (t : String)
    (d : Nat) (mode : Mode) (ar : Bool) (fname : String) (gf : GField)
    (hnd : ((fieldsOf tm t).map Prod.fst).Nodup)
    (hmem : (fname, gf) ∈ fieldsOf tm t)
    (h1 : startsDunder fname = false)
    (hk : lookupKind tm (unwrapName gf.ftype) = some TypeKind.other) :
    MapNode.bare fname ∈ buildMapForType tm cfg t d mode ar
    ∧ (∀ r, MapNode.refEntry fname r ∉ buildMapForType tm cfg t d mode ar)
    ∧ (∀ ch, MapNode.nested fname ch ∉ buildMapForType tm cfg t d mode ar) := by
  have hfh : fieldHead tm cfg d mode ar fname gf = [MapNode.bare fname] :=
    fieldHead_other tm cfg d mode ar fname gf h1 hk
  refine ⟨?_, ?_, ?_⟩
  · apply fieldHead_sub_buildMapFields tm cfg d (fieldsOf tm t) mode ar fname gf hmem
    rw [hfh]
    simp
  · intro r hin
    have := mem_buildMapFields_unique tm cfg d (fieldsOf tm t) mode ar fname gf hnd hmem
      (MapNode.refEntry fname r) hin rfl
    rw [hfh] at this
    simp at this
  · intro ch hin
    have := mem_buildMapFields_unique tm cfg d (fieldsOf tm t) mode ar fname gf hnd hmem
      (MapNode.nested fname ch) hin rfl
    rw [hfh] at this
    simp at this

/-- Concrete type map used by witnesses: `Post` has a scalar field, an
object-typed field and a union/interface-typed field. -/
def wTm : SMap TypeDef :=
  [("Post", ⟨TypeKind.object,
      [("id", ⟨WrapType.named "ID", []⟩),
       ("author", ⟨WrapType.nonNull (WrapType.named "Author"), []⟩),
       ("media", ⟨WrapType.named "Media", []⟩)]⟩),
   ("Author", ⟨TypeKind.object, [("name", ⟨WrapType.named "ID", []⟩)]⟩),
   ("Media", ⟨TypeKind.other, []⟩),
   ("ID", ⟨TypeKind.scalar, []⟩)]

/-- Identity naming configuration used by witnesses. -/
def idCfg : Config := ⟨[], some "keep", fun s => s⟩

theorem claim3_witness :
    ("author", (⟨WrapType.nonNull (WrapType.named "Author"), []⟩ : GField)) ∈ fieldsOf wTm "Post"
    ∧ (MapNode.refEntry "author"
          (toTsName idCfg (unwrapName (WrapType.nonNull (WrapType.named "Author"))) ++ "Map")
          ∈ buildMapForType wTm idCfg "Post" 3 Mode.parent true
        ∧ ∀ k ch, MapNode.nested k ch ∉ buildMapForType wTm idCfg "Post" 3 Mode.parent true) :=
  ⟨by decide,
   claim3_parent_always_refs wTm idCfg "Post" 3 true "author"
     ⟨WrapType.nonNull (WrapType.named "Author"), []⟩ (by decide) (by decide) (by decide)⟩

theorem claim4_witness :
    ("author", (⟨WrapType.nonNull (WrapType.named "Author"), []⟩ : GField)) ∈ fieldsOf wTm "Post"
    ∧ ((MapNode.bare "author" ∈ buildMapForType wTm idCfg "Post" 1 Mode.sub false
        ∧ ∀ k ch, MapNode.nested k ch ∉ buildMapForType wTm idCfg "Post" 1 Mode.sub false)
      ∧ ∀ d : Nat, 1 < d →
          MapNode.nested "author"
            (buildMapForType wTm idCfg
              (unwrapName (WrapType.nonNull (WrapType.named "Author"))) (d - 1) Mode.sub false)
            ∈ buildMapForType wTm idCfg "Post" d Mode.sub false) :=
  ⟨by decide,
   claim4_depth_budget wTm idCfg "Post" "author"
     ⟨WrapType.nonNull (WrapType.named "Author"), []⟩ (by decide) (by decide) (by decide)⟩

theorem claim5_witness :
    MapNode.bare "id" ∈ buildMapForType wTm idCfg "Post" 1 Mode.sub false
    ∧ (nodeName (MapNode.bare "id") ∈ (fieldsOf wTm "Post").map Prod.fst
       ∧ startsDunder (nodeName (MapNode.bare "id")) = false) := by
  have he : MapNode.bare "id" ∈ buildMapForType wTm idCfg "Post" 1 Mode.sub false := by
    apply fieldHead_sub_buildMapFields wTm idCfg 1 (fieldsOf wTm "Post") Mode.sub false "id"
      ⟨WrapType.named "ID", []⟩ (by decide)
    unfold fieldHead
    simp [lookupKind, unwrapName, wTm, mfind]
    decide
  exact ⟨he, claim5_descriptor_soundness wTm idCfg "Post" 1 Mode.sub false _ he⟩

theorem claim9_witness :
    ("media", (⟨WrapType.named "Media", []⟩ : GField)) ∈ fieldsOf wTm "Post"
    ∧ lookupKind wTm (unwrapName (WrapType.named "Media")) = some TypeKind.other
    ∧ (MapNode.bare "media" ∈ buildMapForType wTm idCfg "Post" 4 Mode.parent true
      ∧ (∀ r, MapNode.refEntry "media" r ∉ buildMapForType wTm idCfg "Post" 4 Mode.parent true)
      ∧ (∀ ch, MapNode.nested "media" ch ∉ buildMapForType wTm idCfg "Post" 4 Mode.parent true)) :=
  ⟨by decide, by decide,
   claim9_opaque_composite_bare wTm idCfg "Post" 4 Mode.parent true "media"
     ⟨WrapType.named "Media", []⟩ (by decide) (by decide) (by decide) (by decide)⟩

/-!
Section: Lemmas about the renderers
-/

theorem renderParts_go (queryFlags queryEnums : List String)
    (ps : List (String × JSValue)) (acc : List String) :
    ps.foldl (fun acc p =>
        match renderPart queryFlags queryEnums p.1 p.2 with
        | some s => acc ++ [s]
        | none => acc) acc
      = acc ++ ps.filterMap (fun p => renderPart queryFlags queryEnums p.1 p.2) := by
  induction ps generalizing acc with
  | nil => simp
  | cons p rest ih =>
    cases h : renderPart queryFlags queryEnums p.1 p.2 with
    | none => simp [List.foldl_cons, h, ih, List.filterMap_cons]
    | some s => simp [List.foldl_cons, h, ih, List.filterMap_cons]

theorem renderParts_eq_filterMap (queryFlags queryEnums : List String)
    (ps : List (String × JSValue)) :
    renderParts queryFlags queryEnums ps
      = ps.filterMap (fun p => renderPart queryFlags queryEnums p.1 p.2) := by
  unfold renderParts
  rw [renderParts_go]
  simp

/-- Claim C6: an argument map that is empty, or whose values are all the
absent sentinel `undefined`, renders to the empty string — no parenthesized
clause at all. -/
theorem claim6_clause_omission (queryFlags queryEnums : List String)
    (ps : List (String × JSValue))
    (h : ps = [] ∨ ∀ p ∈ ps, p.2 = JSValue.undef) :
    renderGqlQuery queryFlags queryEnums (some ps) = "" := by
  rcases h with rfl | h
  · rfl
  · unfold renderGqlQuery
    by_cases hl : ps.length = 0
    · simp [hl]
    · have hparts : renderParts queryFlags queryEnums ps = [] := by
        rw [renderParts_eq_filterMap]
        rw [List.filterMap_eq_nil]
        intro p hp
        rw [h p hp]
        rfl
      simp [hl, hparts]

theorem claim6_witness :
    ((([("id", JSValue.undef)]) : List (String × JSValue)) = []
        ∨ ∀ p ∈ ([("id", JSValue.undef)] : List (String × JSValue)), p.2 = JSValue.undef)
    ∧ renderGqlQuery defaultQueryFlags defaultQueryEnums (some [("id", JSValue.undef)]) = "" :=
  ⟨Or.inr (by intro p hp; simp at hp; rw [hp]),
   claim6_clause_omission defaultQueryFlags defaultQueryEnums [("id", JSValue.undef)]
     (Or.inr (by intro p hp; simp at hp; rw [hp]))⟩

/-- Claim C7 (amended): the selection renderer is a total function, and every
element that does not match the documented shape degrades to the leaf
`String(e ?? '')` — the JS string coercion, with `null`/`undefined` coerced to
the empty string — rather than failing the whole render.  The leaf is not an
empty string in general (numbers render as digits, multi-key objects as
`[object Object]`), although values other than `null`/`undefined` can also
coerce to the empty string (for example an empty array). -/
theorem claim7_malformed_leaf (e : JSValue) (h : isSelectionObject e = false) :
    renderGqlBody e = joinCast e
    ∧ ((e = JSValue.undef ∨ e = JSValue.null) → renderGqlBody e = "") := by
  constructor
  · cases e with
    | undef => rfl
    | null => rfl
    | bool b => cases b <;> rfl
    | num n => rfl
    | str s => rfl
    | arr vs => rfl
    | func => rfl
    | obj ps =>
      cases ps with
      | nil => rfl
      | cons p rest =>
        obtain ⟨k, v⟩ := p
        cases rest with
        | nil =>
          cases v with
          | arr children => simp [isSelectionObject] at h
          | undef => rfl
          | null => rfl
          | bool b => rfl
          | num n => rfl
          | str s => rfl
          | obj ps2 => rfl
          | func => rfl
        | cons q rest2 =>
          cases v <;> rfl
  · rintro (rfl | rfl) <;> rfl

/-- The claim C7 states that a malformed selection element degrades to an
empty-string leaf; the renderer instead coerces it with `String(e ?? '')`,
which is non-empty for, e.g., numbers and multi-key objects. -/
theorem claim7_counterexample :
    isSelectionObject (JSValue.num 5) = false
    ∧ renderGqlBody (JSValue.num 5) = "5"
    ∧ isSelectionObject (JSValue.obj [("a", JSValue.num 1), ("b", JSValue.num 2)]) = false
    ∧ renderGqlBody (JSValue.obj [("a", JSValue.num 1), ("b", JSValue.num 2)])
        = "[object Object]"
    ∧ ("5" : String) ≠ "" ∧ ("[object Object]" : String) ≠ "" :=
  ⟨rfl, rfl, rfl, rfl, by decide, by decide⟩

theorem claim7_witness :
    isSelectionObject (JSValue.obj [("a", JSValue.num 1), ("b", JSValue.num 2)]) = false
    ∧ (renderGqlBody (JSValue.obj [("a", JSValue.num 1), ("b", JSValue.num 2)])
        = joinCast (JSValue.obj [("a", JSValue.num 1), ("b", JSValue.num 2)])
      ∧ ((JSValue.obj [("a", JSValue.num 1), ("b", JSValue.num 2)] = JSValue.undef
          ∨ JSValue.obj [("a", JSValue.num 1), ("b", JSValue.num 2)] = JSValue.null)
          → renderGqlBody (JSValue.obj [("a", JSValue.num 1), ("b", JSValue.num 2)]) = "")) :=
  ⟨rfl, claim7_malformed_leaf (JSValue.obj [("a", JSValue.num 1), ("b", JSValue.num 2)]) rfl⟩

/-- Claim C10: the argument renderer drops not only `undefined` values but
every argument whose rendered value is falsy — an empty-string value in the
flag or enum bucket, or a value with no JSON encoding (e.g. a function) in
the plain bucket — while a `null` value in the plain bucket renders as the
literal `null` and is kept. -/
theorem claim10_falsy_dropped (queryFlags queryEnums : List String) (k : String)
    (rest : List (String × JSValue)) :
    (k ∈ queryFlags →
      renderParts queryFlags queryEnums ((k, JSValue.str "") :: rest)
        = renderParts queryFlags queryEnums rest)
    ∧ (k ∉ queryFlags → k ∈ queryEnums →
      renderParts queryFlags queryEnums ((k, JSValue.str "") :: rest)
        = renderParts queryFlags queryEnums rest)
    ∧ (k ∉ queryFlags → k ∉ queryEnums →
      renderParts queryFlags queryEnums ((k, JSValue.func) :: rest)
        = renderParts queryFlags queryEnums rest)
    ∧ (k ∉ queryFlags → k ∉ queryEnums →
      renderParts queryFlags queryEnums ((k, JSValue.null) :: rest)
        = (k ++ ":null") :: renderParts queryFlags queryEnums rest)
    ∧ (k ∉ queryFlags → k ∉ queryEnums →
      renderGqlQuery queryFlags queryEnums (some [(k, JSValue.func)]) = "") := by
  refine ⟨?_, ?_, ?_, ?_, ?_⟩
  · intro hf
    rw [renderParts_eq_filterMap, renderParts_eq_filterMap, List.filterMap_cons]
    have : renderPart queryFlags queryEnums k (JSValue.str "") = none := by
      simp [renderPart, hf, renderQueryFlags, jsTruthy]
    simp [this]
  · intro hf he
    rw [renderParts_eq_filterMap, renderParts_eq_filterMap, List.filterMap_cons]
    have : renderPart queryFlags queryEnums k (JSValue.str "") = none := by
      simp [renderPart, hf, he, jsToString, jsTruthy]
    simp [this]
  · intro hf he
    rw [renderParts_eq_filterMap, renderParts_eq_filterMap, List.filterMap_cons]
    have : renderPart queryFlags queryEnums k JSValue.func = none := by
      simp [renderPart, hf, he, jsonStringify, jsTruthy]
    simp [this]
  · intro hf he
    rw [renderParts_eq_filterMap, renderParts_eq_filterMap, List.filterMap_cons]
    have : renderPart queryFlags queryEnums k JSValue.null = some (k ++ ":null") := by
      simp [renderPart, hf, he, jsonStringify, jsTruthy, jsToString]
      rw [String.append_assoc]
      rfl
    simp [this]
  · intro hf he
    unfold renderGqlQuery
    have : renderParts queryFlags queryEnums [(k, JSValue.func)] = [] := by
      rw [renderParts_eq_filterMap, List.filterMap_cons]
      have : renderPart queryFlags queryEnums k JSValue.func = none := by
        simp [renderPart, hf, he, jsonStringify, jsTruthy]
      simp [this]
    simp [this]

theorem claim10_witness :
    ("mode" : String) ∈ commonFlagNames
    ∧ ("id" : String) ∉ commonFlagNames
    ∧ ("id" : String) ∉ defaultQueryEnums
    ∧ renderParts commonFlagNames defaultQueryEnums [("mode", JSValue.str "")]
        = renderParts commonFlagNames defaultQueryEnums []
    ∧ renderParts commonFlagNames defaultQueryEnums [("id", JSValue.null)]
        = ("id:null") :: renderParts commonFlagNames defaultQueryEnums []
    ∧ renderGqlQuery commonFlagNames defaultQueryEnums (some [("id", JSValue.func)]) = "" := by
  refine ⟨by decide, by decide, by decide, ?_, ?_, ?_⟩
  · exact (claim10_falsy_dropped commonFlagNames defaultQueryEnums "mode" []).1 (by decide)
  · have h := (claim10_falsy_dropped commonFlagNames defaultQueryEnums "id" []).2.2.2.1
      (by decide) (by decide)
    simpa using h
  · exact (claim10_falsy_dropped commonFlagNames defaultQueryEnums "id" []).2.2.2.2
      (by decide) (by decide)

/-!
Section: Lemmas about `analyzeSchemaFlags`
-/

theorem mem_foldl_of_step {β : Type} (g : List String → β → List String)
    (R : β → String → Prop)
    (hg : ∀ acc b x, x ∈ g acc b ↔ x ∈ acc ∨ R b x)
    (l : List β) (acc : List String) (x : String) :
    x ∈ l.foldl g acc ↔ x ∈ acc ∨ ∃ b ∈ l, R b x := by
  induction l generalizing acc with
  | nil => simp
  | cons b rest ih =>
    rw [List.foldl_cons, ih, hg]
    constructor
    · rintro ((h | h) | ⟨c, hc, hR⟩)
      · exact Or.inl h
      · exact Or.inr ⟨b, by simp, h⟩
      · exact Or.inr ⟨c, by simp [hc], hR⟩
    · rintro (h | ⟨c, hc, hR⟩)
      · exact Or.inl (Or.inl h)
      · rcases List.mem_cons.mp hc with rfl | hc
        · exact Or.inl (Or.inr hR)
        · exact Or.inr ⟨c, hc, hR⟩

theorem mem_foldl_addUniq (l : List String) (acc : List String) (x : String) :
    x ∈ l.foldl addUniq acc ↔ x ∈ acc ∨ x ∈ l := by
  rw [mem_foldl_of_step addUniq (fun b x => x = b)
    (fun acc b x => mem_addUniq acc b x) l acc x]
  constructor
  · rintro (h | ⟨b, hb, rfl⟩)
    · exact Or.inl h
    · exact Or.inr hb
  · rintro (h | h)
    · exact Or.inl h
    · exact Or.inr ⟨x, h, rfl⟩

theorem mem_analyzeFlagsArg (tm : SMap TypeDef) (acc : List String)
    (a : String × WrapType) (x : String) :
    x ∈ analyzeFlagsArg tm acc a ↔
      x ∈ acc ∨ (lookupKind tm (unwrapName a.2) = some TypeKind.scalar
        ∧ unwrapName a.2 ∉ builtinScalars ∧ x = a.1) := by
  unfold analyzeFlagsArg
  by_cases hc : lookupKind tm (unwrapName a.2) = some TypeKind.scalar
      ∧ unwrapName a.2 ∉ builtinScalars
  · rw [if_pos hc, mem_addUniq]
    tauto
  · rw [if_neg hc]
    tauto

/-- A name classified as a flag from the schema per the spec: an argument
name, on some field of some root operation type, whose unwrapped type is a
scalar that is not one of the five built-in primitive scalars. -/
def SpecFlagArg (s : SchemaM) (x : String) : Prop :=
  ∃ rt ∈ rootTypes s, ∃ f ∈ rt.fields, ∃ a ∈ f.2.args,
    lookupKind s.typeMap (unwrapName a.2) = some TypeKind.scalar
    ∧ unwrapName a.2 ∉ builtinScalars ∧ x = a.1

/-- Claim C8: the flags set computed by `analyzeSchemaFlags` is exactly the
union of the caller-supplied names, the fixed default list, and the custom
scalar root-argument names; in particular the default names are always
present (the classification is only additive). -/
theorem claim8_flags_analysis (s : SchemaM) (custom : List String) :
    (∀ x, x ∈ analyzeSchemaFlags s custom ↔
        x ∈ custom ∨ x ∈ commonFlagNames ∨ SpecFlagArg s x)
    ∧ ∀ d ∈ commonFlagNames, d ∈ analyzeSchemaFlags s custom := by
  have hmain : ∀ x, x ∈ analyzeSchemaFlags s custom ↔
      x ∈ custom ∨ x ∈ commonFlagNames ∨ SpecFlagArg s x := by
    intro x
    unfold analyzeSchemaFlags
    rw [mem_foldl_of_step
      (fun flags rt => rt.fields.foldl (fun flags f =>
        f.2.args.foldl (analyzeFlagsArg s.typeMap) flags) flags)
      (fun rt x => ∃ f ∈ rt.fields, ∃ a ∈ f.2.args,
        lookupKind s.typeMap (unwrapName a.2) = some TypeKind.scalar
          ∧ unwrapName a.2 ∉ builtinScalars ∧ x = a.1)
      ?_ (rootTypes s)]
    · rw [mem_foldl_addUniq, mem_foldl_addUniq]
      simp only [List.not_mem_nil, false_or]
      unfold SpecFlagArg
      tauto
    · intro acc rt y
      rw [mem_foldl_of_step
        (fun flags f => f.2.args.foldl (analyzeFlagsArg s.typeMap) flags)
        (fun f y => ∃ a ∈ f.2.args,
          lookupKind s.typeMap (unwrapName a.2) = some TypeKind.scalar
            ∧ unwrapName a.2 ∉ builtinScalars ∧ y = a.1)
        ?_ rt.fields]
      intro acc2 f z
      rw [mem_foldl_of_step (analyzeFlagsArg s.typeMap)
        (fun a z => lookupKind s.typeMap (unwrapName a.2) = some TypeKind.scalar
          ∧ unwrapName a.2 ∉ builtinScalars ∧ z = a.1)
        (fun acc3 a z => mem_analyzeFlagsArg s.typeMap acc3 a z) f.2.args]
  refine ⟨hmain, ?_⟩
  intro d hd
  exact (hmain d).2 (Or.inr (Or.inl hd))

theorem claim8_witness :
    ("flags" : String) ∈ commonFlagNames
    ∧ "flags" ∈ analyzeSchemaFlags ⟨wTm, some "Post", none⟩ ["extra"] :=
  ⟨by decide,
   (claim8_flags_analysis ⟨wTm, some "Post", none⟩ ["extra"]).2 "flags" (by decide)⟩

/-!
Section: Lemmas about `topoOrder`

The key quantities: `predCount adj m` is the number of adjacency entries
whose set contains `m` (the true in-degree of `m` once the adjacency map is
built), and `outCount adj out m` is how many already-output nodes have an
edge into `m` (how many times `m`'s counter has been decremented).
-/

/-- The keys of `adj` whose set contains `m` (the recorded prerequisites of
`m`). -/
def predList (adj : SMap (List String)) (m : String) : List String :=
  (adj.filter (fun p => decide (m ∈ p.2))).map Prod.fst

/-- Number of adjacency entries containing `m`. -/
def predCount (adj : SMap (List String)) (m : String) : Nat :=
  (predList adj m).length

/-- Number of output nodes with an edge into `m`. -/
def outCount (adj : SMap (List String)) (out : List String) (m : String) : Nat :=
  (out.filter (fun n => decide (m ∈ mgetD adj n []))).length

theorem predList_nodup (adj : SMap (List String)) (m : String)
    (h : (mkeys adj).Nodup) : (predList adj m).Nodup := by
  have hsub : (adj.filter (fun p => decide (m ∈ p.2))).map Prod.fst |>.Sublist (mkeys adj) :=
    List.Sublist.map Prod.fst (List.filter_sublist adj)
  exact h.sublist hsub

theorem mem_predList (adj : SMap (List String)) (m n : String)
    (h : (mkeys adj).Nodup) : n ∈ predList adj m ↔ m ∈ mgetD adj n [] := by
  constructor
  · intro hn
    obtain ⟨p, hp, hpe⟩ := List.mem_map.mp hn
    have hmem := List.mem_filter.mp hp
    obtain ⟨k, v⟩ := p
    simp only at hpe
    subst hpe
    have hv : mfind adj k = some v := mfind_eq_some_of_mem adj k v h hmem.1
    rw [mgetD, hv]
    simpa using hmem.2
  · intro hm
    cases hf : mfind adj n with
    | none => rw [mgetD, hf] at hm; simp at hm
    | some v =>
      rw [mgetD, hf] at hm
      simp only [Option.getD_some] at hm
      have hnv : (n, v) ∈ adj := mfind_eq_some_mem adj n v hf
      apply List.mem_map.mpr
      exact ⟨(n, v), List.mem_filter.mpr ⟨hnv, by simpa using hm⟩, rfl⟩

theorem outFilter_sub_predList (adj : SMap (List String)) (out : List String) (m : String)
    (hK : (mkeys adj).Nodup) :
    (out.filter (fun n => decide (m ∈ mgetD adj n []))) ⊆ predList adj m := by
  intro n hn
  have h := List.mem_filter.mp hn
  exact (mem_predList adj m n hK).mpr (by simpa using h.2)

theorem outCount_le_predCount (adj : SMap (List String)) (out : List String) (m : String)
    (hK : (mkeys adj).Nodup) (hout : out.Nodup) :
    outCount adj out m ≤ predCount adj m := by
  have h1 : (out.filter (fun n => decide (m ∈ mgetD adj n []))).Nodup := hout.filter _
  have h2 := outFilter_sub_predList adj out m hK
  have h3 : (predList adj m).Nodup := predList_nodup adj m hK
  have hsub : (out.filter (fun n => decide (m ∈ mgetD adj n []))).toFinset
      ⊆ (predList adj m).toFinset := by
    intro x hx
    rw [List.mem_toFinset] at hx ⊢
    exact h2 hx
  have := Finset.card_le_card hsub
  rwa [List.toFinset_card_of_nodup h1, List.toFinset_card_of_nodup h3] at this

theorem preds_sub_out_of_counts (adj : SMap (List String)) (out : List String) (m : String)
    (hK : (mkeys adj).Nodup) (hout : out.Nodup)
    (heq : outCount adj out m = predCount adj m) :
    ∀ n, m ∈ mgetD adj n [] → n ∈ out := by
  intro n hn
  have h1 : (out.filter (fun n => decide (m ∈ mgetD adj n []))).Nodup := hout.filter _
  have h2 := outFilter_sub_predList adj out m hK
  have h3 : (predList adj m).Nodup := predList_nodup adj m hK
  have hsub : (out.filter (fun n => decide (m ∈ mgetD adj n []))).toFinset
      ⊆ (predList adj m).toFinset := by
    intro x hx
    rw [List.mem_toFinset] at hx ⊢
    exact h2 hx
  have hcard : ((predList adj m).toFinset).card
      ≤ ((out.filter (fun n => decide (m ∈ mgetD adj n []))).toFinset).card := by
    rw [List.toFinset_card_of_nodup h1, List.toFinset_card_of_nodup h3]
    rw [outCount, predCount] at heq
    omega
  have hfeq := Finset.eq_of_subset_of_card_le hsub hcard
  have hmem : n ∈ (predList adj m).toFinset := by
    rw [List.mem_toFinset]
    exact (mem_predList adj m n hK).mpr hn
  rw [← hfeq, List.mem_toFinset, List.mem_filter] at hmem
  exact hmem.1

theorem stepNeighbors_deg (ms : List String) (hnd : ms.Nodup) :
    ∀ (inDeg : SMap Int) (q : List String) (x : String),
      mgetD (stepNeighbors ms inDeg q).1 x 0
        = mgetD inDeg x 0 - (if x ∈ ms then 1 else 0) := by
  induction ms with
  | nil => intro inDeg q x; simp [stepNeighbors]
  | cons m rest ih =>
    intro inDeg q x
    simp only [List.nodup_cons] at hnd
    rw [stepNeighbors]
    rw [ih hnd.2]
    by_cases hx : x = m
    · subst hx
      rw [mgetD_mset_self]
      have : x ∉ rest := hnd.1
      simp [this]
    · rw [mgetD_mset_ne _ _ _ _ _ (fun he => hx he.symm)]
      by_cases hr : x ∈ rest
      · simp [hr, hx]
      · simp [hr, hx]

theorem stepNeighbors_queue (ms : List String) (hnd : ms.Nodup) :
    ∀ (inDeg : SMap Int) (q : List String),
      (stepNeighbors ms inDeg q).2
        = q ++ ms.filter (fun m => decide (mgetD inDeg m 0 = 1)) := by
  induction ms with
  | nil => intro inDeg q; simp [stepNeighbors]
  | cons m rest ih =>
    intro inDeg q
    simp only [List.nodup_cons] at hnd
    rw [stepNeighbors]
    rw [ih hnd.2]
    have hdeg : ∀ x ∈ rest, mgetD (mset inDeg m (mgetD inDeg m 0 - 1)) x 0 = mgetD inDeg x 0 := by
      intro x hx
      have : m ≠ x := fun he => hnd.1 (he ▸ hx)
      exact mgetD_mset_ne _ _ _ _ _ this
    have hfil : rest.filter
          (fun x => decide (mgetD (mset inDeg m (mgetD inDeg m 0 - 1)) x 0 = 1))
        = rest.filter (fun x => decide (mgetD inDeg x 0 = 1)) := by
      apply List.filter_congr
      intro x hx
      rw [hdeg x hx]
    rw [hfil]
    by_cases hm : mgetD inDeg m 0 - 1 = 0
    · have hm1 : mgetD inDeg m 0 = 1 := by omega
      simp [hm, hm1, List.filter_cons]
    · have hm1 : ¬ mgetD inDeg m 0 = 1 := by omega
      simp [hm, hm1, List.filter_cons]

theorem stepNeighbors_keys (ms : List String) :
    ∀ (inDeg : SMap Int) (q : List String), (∀ m ∈ ms, m ∈ mkeys inDeg) →
      mkeys (stepNeighbors ms inDeg q).1 = mkeys inDeg := by
  induction ms with
  | nil => intro inDeg q _; simp [stepNeighbors]
  | cons m rest ih =>
    intro inDeg q hsub
    rw [stepNeighbors]
    have hk : mkeys (mset inDeg m (mgetD inDeg m 0 - 1)) = mkeys inDeg :=
      mkeys_mset_of_mem _ _ _ (hsub m (List.mem_cons_self _ _))
    rw [ih _ _ ?_, hk]
    intro x hx
    rw [hk]
    exact hsub x (List.mem_cons_of_mem _ hx)

theorem adjVal_nodup (adj : SMap (List String)) (hadjV : ∀ p ∈ adj, List.Nodup p.2)
    (n : String) : (mgetD adj n []).Nodup := by
  cases hf : mfind adj n with
  | none => rw [mgetD, hf]; simp
  | some v =>
    rw [mgetD, hf]
    exact hadjV (n, v) (mfind_eq_some_mem adj n v hf)

theorem outCount_append_single (adj : SMap (List String)) (out : List String)
    (n m : String) :
    outCount adj (out ++ [n]) m
      = outCount adj out m + (if m ∈ mgetD adj n [] then 1 else 0) := by
  unfold outCount
  rw [List.filter_append]
  by_cases hm : m ∈ mgetD adj n []
  · simp [hm]
  · simp [hm]

theorem kahnLoop_invariant (adj : SMap (List String))
    (hadjK : (mkeys adj).Nodup)
    (hadjV : ∀ p ∈ adj, List.Nodup p.2) :
    ∀ (fuel : Nat) (q : List String) (inDeg : SMap Int) (out : List String),
      (out ++ q).Nodup →
      (∀ x ∈ out ++ q, mgetD inDeg x 0 ≤ 0) →
      (∀ m, mgetD inDeg m 0 = (predCount adj m : Int) - (outCount adj out m : Int)) →
      (∀ n m, m ∈ mgetD adj n [] → m ∈ out → [n, m].Sublist out) →
      (∀ x ∈ out ++ q, x ∈ mkeys inDeg) →
      (∀ n m, m ∈ mgetD adj n [] → m ∈ mkeys inDeg) →
      (kahnLoop adj fuel q inDeg out).1.Nodup
        ∧ (∀ x ∈ (kahnLoop adj fuel q inDeg out).1, x ∈ mkeys inDeg)
        ∧ mkeys (kahnLoop adj fuel q inDeg out).2 = mkeys inDeg
        ∧ (∀ n m, m ∈ mgetD adj n [] → m ∈ (kahnLoop adj fuel q inDeg out).1 →
            [n, m].Sublist (kahnLoop adj fuel q inDeg out).1) := by
  intro fuel
  induction fuel with
  | zero =>
    intro q inDeg out hnd hle hcnt hbef hkeys hsub
    refine ⟨(List.Nodup.of_append_left hnd : out.Nodup), ?_, rfl, ?_⟩
    · intro x hx
      exact hkeys x (List.mem_append.mpr (Or.inl hx))
    · intro n m he hm
      exact hbef n m he hm
  | succ fuel ih =>
    intro q inDeg out hnd hle hcnt hbef hkeys hsub
    cases q with
    | nil =>
      refine ⟨(by simpa using hnd : out.Nodup), ?_, rfl, ?_⟩
      · intro x hx
        exact hkeys x (List.mem_append.mpr (Or.inl hx))
      · intro n m he hm
        exact hbef n m he hm
    | cons n0 rest =>
      have hout : out.Nodup := List.Nodup.of_append_left hnd
      have hne : ∀ x, 0 ≤ mgetD inDeg x 0 := by
        intro x
        rw [hcnt x]
        have := outCount_le_predCount adj out x hadjK hout
        omega
      have hn0q : n0 ∈ out ++ n0 :: rest := by simp
      have hdeg0 : mgetD inDeg n0 0 = 0 := le_antisymm (hle n0 hn0q) (hne n0)
      have hcneq : outCount adj out n0 = predCount adj n0 := by
        have := hcnt n0
        omega
      have hpredsub : ∀ n, n0 ∈ mgetD adj n [] → n ∈ out :=
        preds_sub_out_of_counts adj out n0 hadjK hout hcneq
      have hmsnd : (mgetD adj n0 []).Nodup := adjVal_nodup adj hadjV n0
      have hunf : kahnLoop adj (fuel + 1) (n0 :: rest) inDeg out
          = kahnLoop adj fuel (stepNeighbors (mgetD adj n0 []) inDeg rest).2
              (stepNeighbors (mgetD adj n0 []) inDeg rest).1 (out ++ [n0]) := rfl
      set ms := mgetD adj n0 [] with hms
      set enq := ms.filter (fun m => decide (mgetD inDeg m 0 = 1)) with henq
      have hq2 : (stepNeighbors ms inDeg rest).2 = rest ++ enq :=
        stepNeighbors_queue ms hmsnd inDeg rest
      have hdeg' : ∀ x, mgetD (stepNeighbors ms inDeg rest).1 x 0
          = mgetD inDeg x 0 - (if x ∈ ms then 1 else 0) :=
        stepNeighbors_deg ms hmsnd inDeg rest
      have hkeq : mkeys (stepNeighbors ms inDeg rest).1 = mkeys inDeg :=
        stepNeighbors_keys ms inDeg rest (fun m hm => hsub n0 m hm)
      have henq_mem : ∀ x ∈ enq, x ∈ ms ∧ mgetD inDeg x 0 = 1 := by
        intro x hx
        have := List.mem_filter.mp hx
        exact ⟨this.1, by simpa using this.2⟩
      have henq_fresh : ∀ x ∈ enq, x ∉ out ++ n0 :: rest := by
        intro x hx hxo
        have h1 := (henq_mem x hx).2
        have h2 := hle x hxo
        omega
      have hnd' : ((out ++ [n0]) ++ ((stepNeighbors ms inDeg rest).2)).Nodup := by
        rw [hq2]
        have hre : (out ++ [n0]) ++ (rest ++ enq) = (out ++ n0 :: rest) ++ enq := by
          simp
        rw [hre]
        apply List.Nodup.append hnd (hmsnd.filter _)
        intro a ha hae
        exact henq_fresh a hae ha
      have hle' : ∀ x ∈ (out ++ [n0]) ++ ((stepNeighbors ms inDeg rest).2),
          mgetD (stepNeighbors ms inDeg rest).1 x 0 ≤ 0 := by
        intro x hx
        rw [hq2] at hx
        rw [hdeg' x]
        simp only [List.mem_append, List.mem_cons, List.not_mem_nil, or_false] at hx
        rcases hx with (hx | hx) | (hx | hx)
        · have := hle x (by simp [hx])
          split <;> omega
        · have := hle x (by simp [hx])
          split <;> omega
        · have := hle x (by simp [hx])
          split <;> omega
        · obtain ⟨h1, h2⟩ := henq_mem x hx
          simp [h1]
          omega
      have hcnt' : ∀ m, mgetD (stepNeighbors ms inDeg rest).1 m 0
          = (predCount adj m : Int) - (outCount adj (out ++ [n0]) m : Int) := by
        intro m
        rw [hdeg' m, hcnt m, outCount_append_single]
        by_cases hm : m ∈ ms
        · rw [← hms]
          simp [hm]
          omega
        · rw [← hms]
          simp [hm]
      have hbef' : ∀ n m, m ∈ mgetD adj n [] → m ∈ out ++ [n0] →
          [n, m].Sublist (out ++ [n0]) := by
        intro n m he hm
        rcases List.mem_append.mp hm with hm | hm
        · exact (hbef n m he hm).trans (List.sublist_append_left out [n0])
        · have hm0 : m = n0 := by simpa using hm
          subst hm0
          have hn : n ∈ out := hpredsub n he
          have h1 : [n].Sublist out := List.singleton_sublist.mpr hn
          exact h1.append (List.Sublist.refl [m])
      have hkeys' : ∀ x ∈ (out ++ [n0]) ++ ((stepNeighbors ms inDeg rest).2),
          x ∈ mkeys (stepNeighbors ms inDeg rest).1 := by
        intro x hx
        rw [hkeq]
        rw [hq2] at hx
        simp only [List.mem_append, List.mem_cons, List.not_mem_nil, or_false] at hx
        rcases hx with (hx | hx) | (hx | hx)
        · exact hkeys x (by simp [hx])
        · exact hkeys x (by simp [hx])
        · exact hkeys x (by simp [hx])
        · exact hsub n0 x (henq_mem x hx).1
      have hsub' : ∀ n m, m ∈ mgetD adj n [] → m ∈ mkeys (stepNeighbors ms inDeg rest).1 := by
        intro n m he
        rw [hkeq]
        exact hsub n m he
      have := ih (stepNeighbors ms inDeg rest).2 (stepNeighbors ms inDeg rest).1
        (out ++ [n0]) hnd' hle' hcnt' hbef' hkeys' hsub'
      rw [hunf]
      refine ⟨this.1, ?_, ?_, this.2.2.2⟩
      · intro x hx
        have := this.2.1 x hx
        rwa [hkeq] at this
      · rw [this.2.2.1, hkeq]

theorem mem_mset {α : Type} (m : SMap α) (k : String) (v : α) (p : String × α)
    (h : p ∈ mset m k v) : p = (k, v) ∨ p ∈ m := by
  induction m with
  | nil => simpa using h
  | cons e rest ih =>
    obtain ⟨k', w⟩ := e
    by_cases hk : k' = k
    · subst hk
      simp at h
      rcases h with h | h
      · exact Or.inl (by simp [h])
      · exact Or.inr (List.mem_cons_of_mem _ h)
    · simp [hk] at h
      rcases h with h | h
      · exact Or.inr (by simp [h])
      · rcases ih h with h | h
        · exact Or.inl h
        · exact Or.inr (List.mem_cons_of_mem _ h)

theorem mset_of_not_found {α : Type} (m : SMap α) (k : String) (v : α)
    (h : mfind m k = none) : mset m k v = m ++ [(k, v)] := by
  induction m with
  | nil => simp
  | cons e rest ih =>
    obtain ⟨k', w⟩ := e
    by_cases hk : k' = k
    · simp [hk] at h
    · simp [hk] at h ⊢
      exact ih h

theorem mgetD_mset_default_view {α : Type} (m : SMap α) (k : String) (d : α)
    (h : mfind m k = none) (x : String) : mgetD (mset m k d) x d = mgetD m x d := by
  by_cases hx : k = x
  · subst hx
    rw [mgetD_mset_self, mgetD, h]
    rfl
  · exact mgetD_mset_ne _ _ _ _ _ hx

theorem predCount_cons (k : String) (w : List String) (rest : SMap (List String))
    (x : String) :
    predCount ((k, w) :: rest) x = (if x ∈ w then 1 else 0) + predCount rest x := by
  unfold predCount predList
  by_cases hx : x ∈ w
  · simp [List.filter_cons, hx]
    omega
  · simp [List.filter_cons, hx]

theorem predCount_mset_empty (adj : SMap (List String)) (k : String)
    (h : mfind adj k = none) (x : String) :
    predCount (mset adj k []) x = predCount adj x := by
  rw [mset_of_not_found adj k [] h]
  unfold predCount predList
  rw [List.filter_append]
  simp

theorem addUniq_of_not_mem (l : List String) (x : String) (h : x ∉ l) :
    addUniq l x = l ++ [x] := by
  unfold addUniq
  rw [if_neg h]

theorem predCount_mset_append (adj : SMap (List String)) (n m : String)
    (old : List String) (hold : mgetD adj n [] = old) (hm : m ∉ old) (x : String) :
    predCount (mset adj n (old ++ [m])) x
      = predCount adj x + (if x = m then 1 else 0) := by
  induction adj with
  | nil =>
    simp only [mgetD, mfind_nil, Option.getD_none] at hold
    subst hold
    rw [mset_nil]
    rw [predCount_cons]
    unfold predCount predList
    by_cases hx : x = m
    · subst hx; simp
    · simp [hx]
  | cons e rest ih =>
    obtain ⟨k, w⟩ := e
    by_cases hk : k = n
    · subst hk
      have hw : w = old := by
        rw [mgetD] at hold
        simpa using hold
      subst hw
      rw [mset_cons, if_pos rfl, predCount_cons, predCount_cons]
      by_cases hx : x = m
      · subst hx
        simp [hm]
        omega
      · have : x ∈ w ++ [m] ↔ x ∈ w := by simp [hx]
        by_cases hxw : x ∈ w
        · simp [hxw, this.mpr hxw, hx]
        · simp [hxw, hx, fun h => hxw (this.mp h)]
    · have hold' : mgetD rest n [] = old := by
        rw [mgetD] at hold ⊢
        rw [mfind_cons, if_neg hk] at hold
        exact hold
      rw [mset_cons, if_neg hk, predCount_cons, predCount_cons, ih hold']
      omega

theorem predCount_addUniq (adj : SMap (List String)) (n m : String)
    (hm : m ∉ mgetD adj n []) (x : String) :
    predCount (mset adj n (addUniq (mgetD adj n []) m)) x
      = predCount adj x + (if x = m then 1 else 0) := by
  rw [addUniq_of_not_mem _ _ hm]
  exact predCount_mset_append adj n m _ rfl hm x

theorem initTargets_spec (n : String) :
    ∀ (vs done : List String) (inDeg : SMap Int) (adj : SMap (List String)),
      (done ++ vs).Nodup →
      (mkeys inDeg).Nodup →
      (mkeys adj).Nodup →
      (∀ p ∈ adj, List.Nodup p.2) →
      mgetD adj n [] = done →
      (∀ m, mgetD inDeg m 0 = (predCount adj m : Int)) →
      (∀ k m, m ∈ mgetD adj k [] → m ∈ mkeys inDeg) →
      (mkeys (vs.foldl (initTarget n) (inDeg, adj)).1).Nodup
      ∧ (mkeys (vs.foldl (initTarget n) (inDeg, adj)).2).Nodup
      ∧ (∀ p ∈ (vs.foldl (initTarget n) (inDeg, adj)).2, List.Nodup p.2)
      ∧ mgetD (vs.foldl (initTarget n) (inDeg, adj)).2 n [] = done ++ vs
      ∧ (∀ k, k ≠ n → mgetD (vs.foldl (initTarget n) (inDeg, adj)).2 k []
          = mgetD adj k [])
      ∧ (∀ m, mgetD (vs.foldl (initTarget n) (inDeg, adj)).1 m 0
          = (predCount (vs.foldl (initTarget n) (inDeg, adj)).2 m : Int))
      ∧ (∀ k m, m ∈ mgetD (vs.foldl (initTarget n) (inDeg, adj)).2 k []
          → m ∈ mkeys (vs.foldl (initTarget n) (inDeg, adj)).1)
      ∧ (∀ x, x ∈ mkeys inDeg → x ∈ mkeys (vs.foldl (initTarget n) (inDeg, adj)).1) := by
  intro vs
  induction vs with
  | nil =>
    intro done inDeg adj hnd hK1 hK2 hV hN hC hS
    refine ⟨hK1, hK2, hV, by simpa using hN, fun k _ => rfl, hC, hS, fun x hx => hx⟩
  | cons m vs ih =>
    intro done inDeg adj hnd hK1 hK2 hV hN hC hS
    have hmdone : m ∉ done := by
      intro hmem
      have hdisj := List.disjoint_of_nodup_append hnd
      exact hdisj hmem (List.mem_cons_self _ _)
    have hstep : (m :: vs).foldl (initTarget n) (inDeg, adj)
        = vs.foldl (initTarget n) (initTarget n (inDeg, adj) m) := rfl
    -- unfold the single target step
    have hin1has : mhas (mset inDeg m (mgetD inDeg m 0 + 1)) m = true := by
      unfold mhas
      rw [mfind_mset_self]
      rfl
    have hTgt : initTarget n (inDeg, adj) m
        = (mset inDeg m (mgetD inDeg m 0 + 1),
           let adj1 := mset adj n (addUniq (mgetD adj n []) m)
           if mhas adj1 m then adj1 else mset adj1 m []) := by
      unfold initTarget
      simp only [hin1has, if_true]
    set inDeg1 := mset inDeg m (mgetD inDeg m 0 + 1) with hinDeg1
    set adj1 := mset adj n (addUniq (mgetD adj n []) m) with hadj1
    set adj2 := if mhas adj1 m then adj1 else mset adj1 m [] with hadj2
    have hTgt2 : initTarget n (inDeg, adj) m = (inDeg1, adj2) := hTgt
    -- facts about the one-step state
    have hK1' : (mkeys inDeg1).Nodup := mkeys_mset_nodup _ _ _ hK1
    have hK2a : (mkeys adj1).Nodup := mkeys_mset_nodup _ _ _ hK2
    have hK2' : (mkeys adj2).Nodup := by
      rw [hadj2]
      by_cases h : mhas adj1 m = true
      · simpa [h] using hK2a
      · simp only [h, if_false, Bool.false_eq_true]
        exact mkeys_mset_nodup _ _ _ hK2a
    have hNval : addUniq (mgetD adj n []) m = done ++ [m] := by
      rw [hN]
      exact addUniq_of_not_mem _ _ hmdone
    have hadj1n : mgetD adj1 n [] = done ++ [m] := by
      rw [hadj1, hNval]
      exact mgetD_mset_self _ _ _ _
    have hadj2view : ∀ k, mgetD adj2 k [] = mgetD adj1 k [] := by
      intro k
      rw [hadj2]
      by_cases h : mhas adj1 m = true
      · simp [h]
      · simp only [h, if_false, Bool.false_eq_true]
        apply mgetD_mset_default_view
        unfold mhas at h
        cases hf : mfind adj1 m with
        | none => rfl
        | some v => rw [hf] at h; simp at h
    have hadj2n : mgetD adj2 n [] = done ++ [m] := by rw [hadj2view, hadj1n]
    have hadj2other : ∀ k, k ≠ n → mgetD adj2 k [] = mgetD adj k [] := by
      intro k hk
      rw [hadj2view]
      rw [hadj1]
      exact mgetD_mset_ne _ _ _ _ _ (fun he => hk (by rw [← he]) |>.elim)
    have hV' : ∀ p ∈ adj2, List.Nodup p.2 := by
      intro p hp
      have hp1 : p = (m, []) ∨ p ∈ adj1 := by
        rw [hadj2] at hp
        by_cases h : mhas adj1 m = true
        · rw [if_pos h] at hp
          exact Or.inr hp
        · rw [if_neg h] at hp
          exact mem_mset adj1 m [] p hp
      rcases hp1 with rfl | hp1
      · simp
      · rcases mem_mset adj n (addUniq (mgetD adj n []) m) p hp1 with rfl | hp2
        · rw [hNval]
          have : (done ++ [m]).Nodup := by
            have h1 : (done ++ m :: vs).Nodup := hnd
            have h2 : ((done ++ [m]) ++ vs).Nodup := by
              rw [List.append_assoc]
              simpa using h1
            exact List.Nodup.of_append_left h2
          simpa using this
        · exact hV p hp2
    have hC' : ∀ x, mgetD inDeg1 x 0 = (predCount adj2 x : Int) := by
      intro x
      have hpc2 : predCount adj2 x = predCount adj1 x := by
        rw [hadj2]
        by_cases h : mhas adj1 m = true
        · simp [h]
        · simp only [h, if_false, Bool.false_eq_true]
          apply predCount_mset_empty
          unfold mhas at h
          cases hf : mfind adj1 m with
          | none => rfl
          | some v => rw [hf] at h; simp at h
      have hpc1 : predCount adj1 x = predCount adj x + (if x = m then 1 else 0) := by
        rw [hadj1]
        apply predCount_addUniq
        rw [hN]
        exact hmdone
      rw [hpc2, hpc1]
      by_cases hx : x = m
      · subst hx
        rw [hinDeg1, mgetD_mset_self, hC x]
        simp
      · rw [hinDeg1, mgetD_mset_ne _ _ _ _ _ (fun he => hx he.symm), hC x]
        simp [hx]
    have hS' : ∀ k m', m' ∈ mgetD adj2 k [] → m' ∈ mkeys inDeg1 := by
      intro k m' hm'
      by_cases hk : k = n
      · subst hk
        rw [hadj2n] at hm'
        rcases List.mem_append.mp hm' with h | h
        · have := hS k m' (by rw [hN]; exact h)
          rw [hinDeg1]
          exact (mem_mkeys_mset _ _ _ _).mpr (Or.inl this)
        · have hm'm : m' = m := by simpa using h
          subst hm'm
          rw [hinDeg1]
          exact (mem_mkeys_mset _ _ _ _).mpr (Or.inr rfl)
      · rw [hadj2other k hk] at hm'
        have := hS k m' hm'
        rw [hinDeg1]
        exact (mem_mkeys_mset _ _ _ _).mpr (Or.inl this)
    have hnd' : ((done ++ [m]) ++ vs).Nodup := by
      rw [List.append_assoc]
      simpa using hnd
    have := ih (done ++ [m]) inDeg1 adj2 hnd' hK1' hK2' hV' hadj2n hC' hS'
    rw [hstep, hTgt2]
    refine ⟨this.1, this.2.1, this.2.2.1, ?_, ?_, this.2.2.2.2.2.1, this.2.2.2.2.2.2.1, ?_⟩
    · rw [this.2.2.2.1]
      simp
    · intro k hk
      rw [this.2.2.2.2.1 k hk]
      exact hadj2other k hk
    · intro x hx
      apply this.2.2.2.2.2.2.2
      rw [hinDeg1]
      exact (mem_mkeys_mset _ _ _ _).mpr (Or.inl hx)

theorem initFold_spec :
    ∀ (ds : List (String × List String)) (inDeg : SMap Int) (adj : SMap (List String)),
      (ds.map Prod.fst).Nodup →
      (∀ p ∈ ds, List.Nodup p.2) →
      (mkeys inDeg).Nodup →
      (mkeys adj).Nodup →
      (∀ p ∈ adj, List.Nodup p.2) →
      (∀ p ∈ ds, mgetD adj p.1 [] = []) →
      (∀ m, mgetD inDeg m 0 = (predCount adj m : Int)) →
      (∀ k m, m ∈ mgetD adj k [] → m ∈ mkeys inDeg) →
      (mkeys (ds.foldl initEntry (inDeg, adj)).1).Nodup
      ∧ (mkeys (ds.foldl initEntry (inDeg, adj)).2).Nodup
      ∧ (∀ p ∈ (ds.foldl initEntry (inDeg, adj)).2, List.Nodup p.2)
      ∧ (∀ m, mgetD (ds.foldl initEntry (inDeg, adj)).1 m 0
          = (predCount (ds.foldl initEntry (inDeg, adj)).2 m : Int))
      ∧ (∀ k m, m ∈ mgetD (ds.foldl initEntry (inDeg, adj)).2 k []
          → m ∈ mkeys (ds.foldl initEntry (inDeg, adj)).1)
      ∧ (∀ p ∈ ds, mgetD (ds.foldl initEntry (inDeg, adj)).2 p.1 [] = p.2)
      ∧ (∀ k, k ∉ ds.map Prod.fst →
          mgetD (ds.foldl initEntry (inDeg, adj)).2 k [] = mgetD adj k [])
      ∧ (∀ x, x ∈ mkeys inDeg → x ∈ mkeys (ds.foldl initEntry (inDeg, adj)).1)
      ∧ (∀ p ∈ ds, p.1 ∈ mkeys (ds.foldl initEntry (inDeg, adj)).1) := by
  intro ds
  induction ds with
  | nil =>
    intro inDeg adj _ _ hK1 hK2 hV _ hC hS
    exact ⟨hK1, hK2, hV, hC, hS, by simp, fun k _ => rfl, fun x hx => hx, by simp⟩
  | cons e rest ih =>
    intro inDeg adj hdsK hdsV hK1 hK2 hV hE hC hS
    obtain ⟨n, vs⟩ := e
    simp only [List.map_cons, List.nodup_cons] at hdsK
    have hstep : (((n, vs) :: rest).foldl initEntry (inDeg, adj))
        = rest.foldl initEntry (initEntry (inDeg, adj) (n, vs)) := rfl
    set inDegA := if mhas inDeg n then inDeg else mset inDeg n 0 with hinDegA
    set adjA := if mhas adj n then adj else mset adj n [] with hadjA
    have hEntry : initEntry (inDeg, adj) (n, vs) = vs.foldl (initTarget n) (inDegA, adjA) := rfl
    -- view-preservation of the two conditional inserts
    have hinView : ∀ x, mgetD inDegA x 0 = mgetD inDeg x 0 := by
      intro x
      rw [hinDegA]
      by_cases h : mhas inDeg n = true
      · simp [h]
      · simp only [h, if_false, Bool.false_eq_true]
        apply mgetD_mset_default_view
        unfold mhas at h
        cases hf : mfind inDeg n with
        | none => rfl
        | some v => rw [hf] at h; simp at h
    have hadjView : ∀ x, mgetD adjA x [] = mgetD adj x [] := by
      intro x
      rw [hadjA]
      by_cases h : mhas adj n = true
      · simp [h]
      · simp only [h, if_false, Bool.false_eq_true]
        apply mgetD_mset_default_view
        unfold mhas at h
        cases hf : mfind adj n with
        | none => rfl
        | some v => rw [hf] at h; simp at h
    have hinKeys : ∀ x, x ∈ mkeys inDeg → x ∈ mkeys inDegA := by
      intro x hx
      rw [hinDegA]
      by_cases h : mhas inDeg n = true
      · simpa [h] using hx
      · simp only [h, if_false, Bool.false_eq_true]
        exact (mem_mkeys_mset _ _ _ _).mpr (Or.inl hx)
    have hnKeysA : n ∈ mkeys inDegA := by
      rw [hinDegA]
      by_cases h : mhas inDeg n = true
      · simp only [h, if_true]
        unfold mhas at h
        exact (mfind_isSome_iff_mem_mkeys inDeg n).mp (by simpa using h)
      · simp only [h, if_false, Bool.false_eq_true]
        exact (mem_mkeys_mset _ _ _ _).mpr (Or.inr rfl)
    have hK1A : (mkeys inDegA).Nodup := by
      rw [hinDegA]
      by_cases h : mhas inDeg n = true
      · simpa [h] using hK1
      · simp only [h, if_false, Bool.false_eq_true]
        exact mkeys_mset_nodup _ _ _ hK1
    have hK2A : (mkeys adjA).Nodup := by
      rw [hadjA]
      by_cases h : mhas adj n = true
      · simpa [h] using hK2
      · simp only [h, if_false, Bool.false_eq_true]
        exact mkeys_mset_nodup _ _ _ hK2
    have hVA : ∀ p ∈ adjA, List.Nodup p.2 := by
      intro p hp
      rw [hadjA] at hp
      by_cases h : mhas adj n = true
      · rw [if_pos h] at hp
        exact hV p hp
      · rw [if_neg (by simpa using h)] at hp
        rcases mem_mset adj n [] p hp with rfl | hp2
        · simp
        · exact hV p hp2
    have hCA : ∀ m, mgetD inDegA m 0 = (predCount adjA m : Int) := by
      intro m
      rw [hinView m, hC m]
      congr 1
      rw [hadjA]
      by_cases h : mhas adj n = true
      · simp [h]
      · simp only [h, if_false, Bool.false_eq_true]
        rw [predCount_mset_empty]
        unfold mhas at h
        cases hf : mfind adj n with
        | none => rfl
        | some v => rw [hf] at h; simp at h
    have hSA : ∀ k m, m ∈ mgetD adjA k [] → m ∈ mkeys inDegA := by
      intro k m hm
      rw [hadjView k] at hm
      exact hinKeys m (hS k m hm)
    have hNA : mgetD adjA n [] = [] := by
      rw [hadjView n]
      exact hE (n, vs) (List.mem_cons_self _ _)
    have hvsnd : (([] ++ vs)).Nodup := by
      simpa using hdsV (n, vs) (List.mem_cons_self _ _)
    have hT := initTargets_spec n vs [] inDegA adjA hvsnd hK1A hK2A hVA hNA hCA hSA
    set st1 := vs.foldl (initTarget n) (inDegA, adjA) with hst1
    -- hypotheses for the tail fold
    have hE' : ∀ p ∈ rest, mgetD st1.2 p.1 [] = [] := by
      intro p hp
      have hne : p.1 ≠ n := by
        intro he
        apply hdsK.1
        rw [← he]
        exact List.mem_map_of_mem Prod.fst hp
      rw [hT.2.2.2.2.1 p.1 hne, hadjView p.1]
      exact hE p (List.mem_cons_of_mem _ hp)
    have := ih st1.1 st1.2 hdsK.2 (fun p hp => hdsV p (List.mem_cons_of_mem _ hp))
      hT.1 hT.2.1 hT.2.2.1 hE' hT.2.2.2.2.2.1 hT.2.2.2.2.2.2.1
    rw [Prod.mk.eta] at this
    rw [hstep, hEntry]
    refine ⟨this.1, this.2.1, this.2.2.1, this.2.2.2.1, this.2.2.2.2.1, ?_, ?_, ?_, ?_⟩
    · intro p hp
      rcases List.mem_cons.mp hp with rfl | hp
      · have hnn : n ∉ rest.map Prod.fst := hdsK.1
        rw [this.2.2.2.2.2.2.1 n hnn]
        have := hT.2.2.2.1
        simpa using this
      · exact this.2.2.2.2.2.1 p hp
    · intro k hk
      simp only [List.map_cons, List.mem_cons] at hk
      push_neg at hk
      rw [this.2.2.2.2.2.2.1 k hk.2, hT.2.2.2.2.1 k hk.1, hadjView k]
    · intro x hx
      exact this.2.2.2.2.2.2.2.1 x (hT.2.2.2.2.2.2.2 x (hinKeys x hx))
    · intro p hp
      rcases List.mem_cons.mp hp with rfl | hp
      · exact this.2.2.2.2.2.2.2.1 n (hT.2.2.2.2.2.2.2 n hnKeysA)
      · exact this.2.2.2.2.2.2.2.2 p hp

theorem initState_spec (deps : SMap (List String))
    (hdK : (mkeys deps).Nodup) (hdV : ∀ p ∈ deps, List.Nodup p.2) :
    (mkeys (initState deps).1).Nodup
    ∧ (mkeys (initState deps).2).Nodup
    ∧ (∀ p ∈ (initState deps).2, List.Nodup p.2)
    ∧ (∀ m, mgetD (initState deps).1 m 0 = (predCount (initState deps).2 m : Int))
    ∧ (∀ k m, m ∈ mgetD (initState deps).2 k [] → m ∈ mkeys (initState deps).1)
    ∧ (∀ n, mgetD (initState deps).2 n [] = mgetD deps n [])
    ∧ (∀ p ∈ deps, p.1 ∈ mkeys (initState deps).1) := by
  have h := initFold_spec deps [] [] hdK hdV (by simp) (by simp) (by simp)
    (by intro p _; rfl) (by intro m; rfl) (by intro k m hm; simp [mgetD, mfind] at hm)
  have hval : ∀ n, mgetD (initState deps).2 n [] = mgetD deps n [] := by
    intro n
    unfold initState
    by_cases hn : n ∈ mkeys deps
    · obtain ⟨vs, hvs⟩ := Option.isSome_iff_exists.mp
        ((mfind_isSome_iff_mem_mkeys deps n).mpr hn)
      have hmem : (n, vs) ∈ deps := mfind_eq_some_mem deps n vs hvs
      have hlhs := h.2.2.2.2.2.1 (n, vs) hmem
      have hrhs : mgetD deps n [] = vs := by rw [mgetD, hvs]; rfl
      rw [hrhs]
      exact hlhs
    · have h1 := h.2.2.2.2.2.2.1 n (by simpa [mkeys] using hn)
      have h2 : mfind deps n = none := by
        cases hf : mfind deps n with
        | none => rfl
        | some v =>
          exact absurd ((mfind_isSome_iff_mem_mkeys deps n).mp (by simp [hf])) hn
      have hrhs : mgetD deps n [] = [] := by rw [mgetD, h2]; rfl
      rw [hrhs, h1]
      rfl
  exact ⟨h.1, h.2.1, h.2.2.1, h.2.2.2.1, h.2.2.2.2.1, hval, h.2.2.2.2.2.2.2.2⟩

theorem appendMissing_ext (keys : List String) :
    ∀ out : List String, ∃ ext, appendMissing keys out = out ++ ext := by
  induction keys with
  | nil => intro out; exact ⟨[], by simp [appendMissing]⟩
  | cons n rest ih =>
    intro out
    unfold appendMissing
    rw [List.foldl_cons]
    by_cases hn : n ∈ out
    · simp only [if_pos hn]
      exact ih out
    · simp only [if_neg hn]
      obtain ⟨ext, hext⟩ := ih (out ++ [n])
      exact ⟨[n] ++ ext, by rw [← List.append_assoc]; exact hext⟩

theorem appendMissing_mem (keys : List String) :
    ∀ (out : List String) (x : String),
      x ∈ appendMissing keys out ↔ x ∈ out ∨ x ∈ keys := by
  induction keys with
  | nil => intro out x; simp [appendMissing]
  | cons n rest ih =>
    intro out x
    unfold appendMissing
    rw [List.foldl_cons]
    by_cases hn : n ∈ out
    · simp only [if_pos hn]
      rw [show List.foldl (fun out n => if n ∈ out then out else out ++ [n]) out rest
          = appendMissing rest out from rfl, ih out x]
      constructor
      · rintro (h | h)
        · exact Or.inl h
        · exact Or.inr (List.mem_cons_of_mem _ h)
      · rintro (h | h)
        · exact Or.inl h
        · rcases List.mem_cons.mp h with rfl | h
          · exact Or.inl hn
          · exact Or.inr h
    · simp only [if_neg hn]
      rw [show List.foldl (fun out n => if n ∈ out then out else out ++ [n]) (out ++ [n]) rest
          = appendMissing rest (out ++ [n]) from rfl, ih (out ++ [n]) x]
      simp only [List.mem_append, List.mem_cons, List.mem_singleton]
      constructor
      · rintro ((h | h) | h)
        · exact Or.inl h
        · exact Or.inr (Or.inl (by simpa using h))
        · exact Or.inr (Or.inr h)
      · rintro (h | (h | h))
        · exact Or.inl (Or.inl h)
        · exact Or.inl (Or.inr (by simpa using h))
        · exact Or.inr h

theorem appendMissing_nodup (keys : List String) :
    ∀ out : List String, out.Nodup → (appendMissing keys out).Nodup := by
  induction keys with
  | nil => intro out h; simpa [appendMissing] using h
  | cons n rest ih =>
    intro out h
    unfold appendMissing
    rw [List.foldl_cons]
    by_cases hn : n ∈ out
    · simp only [if_pos hn]
      exact ih out h
    · simp only [if_neg hn]
      apply ih (out ++ [n])
      simpa [List.nodup_append] using ⟨h, hn⟩

theorem pair_sublist_indices (a b : String) :
    ∀ l : List String, [a, b].Sublist l →
      ∃ i j : Nat, i < j ∧ l[i]? = some a ∧ l[j]? = some b := by
  intro l
  induction l with
  | nil => intro h; exact absurd h (by simp)
  | cons x rest ih =>
    intro h
    cases h with
    | cons _ h' =>
      obtain ⟨i, j, hij, ha, hb⟩ := ih h'
      exact ⟨i + 1, j + 1, by omega, by simpa using ha, by simpa using hb⟩
    | cons₂ _ h' =>
      have hb : b ∈ rest := List.singleton_sublist.mp h'
      obtain ⟨j, hj⟩ := List.mem_iff_getElem?.mp hb
      exact ⟨0, j + 1, by omega, by simp, by simpa using hj⟩

theorem count_eq_one_of_nodup_mem (l : List String) (x : String)
    (hnd : l.Nodup) (hm : x ∈ l) : l.count x = 1 := by
  have h1 : l.count x ≤ 1 := List.nodup_iff_count_le_one.mp hnd x
  have h2 : 0 < l.count x := List.count_pos_iff_mem.mpr hm
  omega

theorem mem_of_nodup_sub_ge (out keys : List String) (hout : out.Nodup)
    (hkeys : keys.Nodup) (hsub : ∀ x ∈ out, x ∈ keys)
    (hlen : keys.length ≤ out.length) : ∀ x ∈ keys, x ∈ out := by
  intro x hx
  have hsubf : out.toFinset ⊆ keys.toFinset := by
    intro y hy
    rw [List.mem_toFinset] at hy ⊢
    exact hsub y hy
  have hcard : keys.toFinset.card ≤ out.toFinset.card := by
    rw [List.toFinset_card_of_nodup hout, List.toFinset_card_of_nodup hkeys]
    exact hlen
  have := Finset.eq_of_subset_of_card_le hsubf hcard
  rw [← List.mem_toFinset, ← this, List.mem_toFinset] at hx
  exact hx

theorem initQueue_nodup (inDeg : SMap Int) (h : (mkeys inDeg).Nodup) :
    (initQueue inDeg).Nodup := by
  have hsub : (initQueue inDeg).Sublist (mkeys inDeg) :=
    List.Sublist.map Prod.fst (List.filter_sublist inDeg)
  exact h.sublist hsub

theorem initQueue_sub (inDeg : SMap Int) : ∀ x ∈ initQueue inDeg, x ∈ mkeys inDeg := by
  intro x hx
  have hsub : (initQueue inDeg).Sublist (mkeys inDeg) :=
    List.Sublist.map Prod.fst (List.filter_sublist inDeg)
  exact hsub.mem hx

theorem initQueue_val (inDeg : SMap Int) (h : (mkeys inDeg).Nodup) :
    ∀ x ∈ initQueue inDeg, mgetD inDeg x 0 = 0 := by
  intro x hx
  obtain ⟨p, hp, hpe⟩ := List.mem_map.mp hx
  have hfil := List.mem_filter.mp hp
  obtain ⟨k, d⟩ := p
  simp only at hpe
  subst hpe
  have hd : d = 0 := by simpa using hfil.2
  subst hd
  rw [mgetD, mfind_eq_some_of_mem inDeg k 0 h hfil.1]
  rfl

theorem topoOrder_spec (deps : SMap (List String))
    (hdK : (mkeys deps).Nodup) (hdV : ∀ p ∈ deps, List.Nodup p.2) :
    (topoOrder deps).Nodup
    ∧ (∀ x, x ∈ topoOrder deps ↔ x ∈ mkeys (initState deps).1)
    ∧ (∀ n m, m ∈ mgetD deps n [] → m ∈ kahnPhaseOut deps →
        [n, m].Sublist (topoOrder deps)) := by
  obtain ⟨hK1, hK2, hV2, hC, hS, hvals, hkdeps⟩ := initState_spec deps hdK hdV
  set st1 := (initState deps).1 with hst1
  set st2 := (initState deps).2 with hst2
  set q0 := initQueue st1 with hq0
  set fuel := q0.length + adjWeight st2 + 1 with hfuel
  set res := kahnLoop st2 fuel q0 st1 [] with hres
  have hmain := kahnLoop_invariant st2 hK2 hV2 fuel q0 st1 []
    (by simpa using initQueue_nodup st1 hK1)
    (by
      intro x hx
      simp only [List.nil_append] at hx
      rw [initQueue_val st1 hK1 x hx])
    (by
      intro m
      rw [hC m]
      simp [outCount])
    (by intro n m _ hm; simp at hm)
    (by
      intro x hx
      simp only [List.nil_append] at hx
      exact initQueue_sub st1 x hx)
    hS
  obtain ⟨houtnd, houtsub, hkeyseq, hbeffin⟩ := hmain
  have htopo : topoOrder deps
      = if res.1.length < (mkeys res.2).length then appendMissing (mkeys res.2) res.1
        else res.1 := rfl
  have hkout : kahnPhaseOut deps = res.1 := rfl
  refine ⟨?_, ?_, ?_⟩
  · rw [htopo]
    by_cases hlen : res.1.length < (mkeys res.2).length
    · rw [if_pos hlen]
      exact appendMissing_nodup _ _ houtnd
    · rw [if_neg hlen]
      exact houtnd
  · intro x
    rw [htopo]
    by_cases hlen : res.1.length < (mkeys res.2).length
    · rw [if_pos hlen, appendMissing_mem]
      rw [hkeyseq]
      constructor
      · rintro (h | h)
        · exact houtsub x h
        · exact h
      · exact Or.inr
    · rw [if_neg hlen]
      constructor
      · exact houtsub x
      · intro hx
        apply mem_of_nodup_sub_ge res.1 (mkeys st1) houtnd hK1 houtsub _ x hx
        rw [hkeyseq] at hlen
        omega
  · intro n m he hm
    have he' : m ∈ mgetD st2 n [] := by rw [hst2, hvals n]; exact he
    have hm' : m ∈ res.1 := by rw [← hkout]; exact hm
    have hsl := hbeffin n m he' hm'
    rw [htopo]
    by_cases hlen : res.1.length < (mkeys res.2).length
    · rw [if_pos hlen]
      obtain ⟨ext, hext⟩ := appendMissing_ext (mkeys res.2) res.1
      rw [hext]
      exact hsl.trans (List.sublist_append_left _ _)
    · rw [if_neg hlen]
      exact hsl

theorem collectDepsField_inv (tm : SMap TypeDef) (tname : String)
    (deps : SMap (List String)) (f : String × GField)
    (hK : (mkeys deps).Nodup) (hV : ∀ p ∈ deps, List.Nodup p.2) :
    (mkeys (collectDepsField tm tname deps f)).Nodup
    ∧ (∀ p ∈ collectDepsField tm tname deps f, List.Nodup p.2)
    ∧ (∀ x ∈ mkeys deps, x ∈ mkeys (collectDepsField tm tname deps f))
    ∧ (∀ b y, y ∈ mgetD deps b [] → y ∈ mgetD (collectDepsField tm tname deps f) b []) := by
  unfold collectDepsField
  by_cases hcond : lookupKind tm (unwrapName f.2.ftype) = some TypeKind.object
  · simp only [if_pos hcond]
    set dep := unwrapName f.2.ftype with hdep
    set depsE := if mhas deps dep then deps else mset deps dep [] with hdepsE
    have hview : ∀ x, mgetD depsE x [] = mgetD deps x [] := by
      intro x
      rw [hdepsE]
      by_cases h : mhas deps dep = true
      · simp [h]
      · simp only [h, if_false, Bool.false_eq_true]
        apply mgetD_mset_default_view
        unfold mhas at h
        cases hf : mfind deps dep with
        | none => rfl
        | some v => rw [hf] at h; simp at h
    have hKE : (mkeys depsE).Nodup := by
      rw [hdepsE]
      by_cases h : mhas deps dep = true
      · simpa [h] using hK
      · simp only [h, if_false, Bool.false_eq_true]
        exact mkeys_mset_nodup _ _ _ hK
    have hVE : ∀ p ∈ depsE, List.Nodup p.2 := by
      intro p hp
      rw [hdepsE] at hp
      by_cases h : mhas deps dep = true
      · rw [if_pos h] at hp; exact hV p hp
      · rw [if_neg (by simpa using h)] at hp
        rcases mem_mset deps dep [] p hp with rfl | hp2
        · simp
        · exact hV p hp2
    have hkeysE : ∀ x ∈ mkeys deps, x ∈ mkeys depsE := by
      intro x hx
      rw [hdepsE]
      by_cases h : mhas deps dep = true
      · simpa [h] using hx
      · simp only [h, if_false, Bool.false_eq_true]
        exact (mem_mkeys_mset _ _ _ _).mpr (Or.inl hx)
    refine ⟨mkeys_mset_nodup _ _ _ hKE, ?_, ?_, ?_⟩
    · intro p hp
      rcases mem_mset depsE dep (addUniq (mgetD depsE dep []) tname) p hp with rfl | hp2
      · exact addUniq_nodup _ _ (adjVal_nodup depsE hVE dep)
      · exact hVE p hp2
    · intro x hx
      exact (mem_mkeys_mset _ _ _ _).mpr (Or.inl (hkeysE x hx))
    · intro b y hy
      by_cases hb : dep = b
      · subst hb
        rw [mgetD_mset_self]
        apply addUniq_sub
        rw [hview]
        exact hy
      · rw [mgetD_mset_ne _ _ _ _ _ hb, hview]
        exact hy
  · simp only [if_neg hcond]
    exact ⟨hK, hV, fun x hx => hx, fun b y hy => hy⟩

theorem collectDepsField_edge (tm : SMap TypeDef) (tname : String)
    (deps : SMap (List String)) (f : String × GField)
    (hcond : lookupKind tm (unwrapName f.2.ftype) = some TypeKind.object) :
    tname ∈ mgetD (collectDepsField tm tname deps f) (unwrapName f.2.ftype) [] := by
  unfold collectDepsField
  simp only [if_pos hcond]
  rw [mgetD_mset_self]
  exact mem_addUniq_self _ _

theorem collectDepsFields_inv (tm : SMap TypeDef) (tname : String) :
    ∀ (fs : List (String × GField)) (deps : SMap (List String)),
      (mkeys deps).Nodup → (∀ p ∈ deps, List.Nodup p.2) →
      (mkeys (fs.foldl (collectDepsField tm tname) deps)).Nodup
      ∧ (∀ p ∈ fs.foldl (collectDepsField tm tname) deps, List.Nodup p.2)
      ∧ (∀ x ∈ mkeys deps, x ∈ mkeys (fs.foldl (collectDepsField tm tname) deps))
      ∧ (∀ b y, y ∈ mgetD deps b []
          → y ∈ mgetD (fs.foldl (collectDepsField tm tname) deps) b []) := by
  intro fs
  induction fs with
  | nil => intro deps hK hV; exact ⟨hK, hV, fun x hx => hx, fun b y hy => hy⟩
  | cons f rest ih =>
    intro deps hK hV
    rw [List.foldl_cons]
    have h1 := collectDepsField_inv tm tname deps f hK hV
    have h2 := ih (collectDepsField tm tname deps f) h1.1 h1.2.1
    exact ⟨h2.1, h2.2.1,
      fun x hx => h2.2.2.1 x (h1.2.2.1 x hx),
      fun b y hy => h2.2.2.2 b y (h1.2.2.2 b y hy)⟩

theorem collectDepsFields_edge (tm : SMap TypeDef) (tname : String) :
    ∀ (fs : List (String × GField)) (deps : SMap (List String)),
      (mkeys deps).Nodup → (∀ p ∈ deps, List.Nodup p.2) →
      ∀ f ∈ fs, lookupKind tm (unwrapName f.2.ftype) = some TypeKind.object →
      tname ∈ mgetD (fs.foldl (collectDepsField tm tname) deps) (unwrapName f.2.ftype) [] := by
  intro fs
  induction fs with
  | nil => intro deps _ _ f hf; simp at hf
  | cons g rest ih =>
    intro deps hK hV f hf hcond
    rw [List.foldl_cons]
    have h1 := collectDepsField_inv tm tname deps g hK hV
    rcases List.mem_cons.mp hf with rfl | hf
    · have hedge := collectDepsField_edge tm tname deps f hcond
      have h2 := collectDepsFields_inv tm tname rest (collectDepsField tm tname deps f)
        h1.1 h1.2.1
      exact h2.2.2.2 _ tname hedge
    · exact ih (collectDepsField tm tname deps g) h1.1 h1.2.1 f hf hcond

theorem ensure_entry_inv (deps : SMap (List String)) (k : String)
    (hK : (mkeys deps).Nodup) (hV : ∀ p ∈ deps, List.Nodup p.2) :
    (∀ x, mgetD (if mhas deps k then deps else mset deps k []) x [] = mgetD deps x [])
    ∧ (mkeys (if mhas deps k then deps else mset deps k [])).Nodup
    ∧ (∀ p ∈ (if mhas deps k then deps else mset deps k []), List.Nodup p.2)
    ∧ (∀ x ∈ mkeys deps, x ∈ mkeys (if mhas deps k then deps else mset deps k []))
    ∧ k ∈ mkeys (if mhas deps k then deps else mset deps k []) := by
  by_cases h : mhas deps k = true
  · rw [if_pos h]
    refine ⟨fun x => rfl, hK, hV, fun x hx => hx, ?_⟩
    unfold mhas at h
    exact (mfind_isSome_iff_mem_mkeys deps k).mp (by simpa using h)
  · rw [if_neg (by simpa using h)]
    have hnone : mfind deps k = none := by
      unfold mhas at h
      cases hf : mfind deps k with
      | none => rfl
      | some v => rw [hf] at h; simp at h
    refine ⟨fun x => mgetD_mset_default_view deps k [] hnone x,
      mkeys_mset_nodup _ _ _ hK, ?_,
      fun x hx => (mem_mkeys_mset _ _ _ _).mpr (Or.inl hx),
      (mem_mkeys_mset _ _ _ _).mpr (Or.inr rfl)⟩
    intro p hp
    rcases mem_mset deps k [] p hp with rfl | hp2
    · simp
    · exact hV p hp2

theorem collectDepsEntry_inv (tm : SMap TypeDef) (deps : SMap (List String))
    (e : String × TypeDef)
    (hK : (mkeys deps).Nodup) (hV : ∀ p ∈ deps, List.Nodup p.2) :
    (mkeys (collectDepsEntry tm deps e)).Nodup
    ∧ (∀ p ∈ collectDepsEntry tm deps e, List.Nodup p.2)
    ∧ (∀ x ∈ mkeys deps, x ∈ mkeys (collectDepsEntry tm deps e))
    ∧ (∀ b y, y ∈ mgetD deps b [] → y ∈ mgetD (collectDepsEntry tm deps e) b []) := by
  unfold collectDepsEntry
  split
  · exact ⟨hK, hV, fun x hx => hx, fun b y hy => hy⟩
  · obtain ⟨hview, hKE, hVE, hkeysE, _⟩ := ensure_entry_inv deps e.1 hK hV
    have h1 := collectDepsFields_inv tm e.1 e.2.fields _ hKE hVE
    refine ⟨h1.1, h1.2.1, fun x hx => h1.2.2.1 x (hkeysE x hx), fun b y hy => ?_⟩
    apply h1.2.2.2
    rw [hview b]
    exact hy

theorem collectDepsEntry_key (tm : SMap TypeDef) (deps : SMap (List String))
    (e : String × TypeDef)
    (hK : (mkeys deps).Nodup) (hV : ∀ p ∈ deps, List.Nodup p.2)
    (hk : e.2.kind = TypeKind.object) (hd : startsDunder e.1 = false) :
    e.1 ∈ mkeys (collectDepsEntry tm deps e) := by
  unfold collectDepsEntry
  rw [if_neg (by simp [hk, hd])]
  obtain ⟨hview, hKE, hVE, hkeysE, hkmem⟩ := ensure_entry_inv deps e.1 hK hV
  have h1 := collectDepsFields_inv tm e.1 e.2.fields _ hKE hVE
  exact h1.2.2.1 _ hkmem

theorem collectDepsEntry_edge (tm : SMap TypeDef) (deps : SMap (List String))
    (e : String × TypeDef)
    (hK : (mkeys deps).Nodup) (hV : ∀ p ∈ deps, List.Nodup p.2)
    (hk : e.2.kind = TypeKind.object) (hd : startsDunder e.1 = false)
    (f : String × GField) (hf : f ∈ e.2.fields)
    (hcond : lookupKind tm (unwrapName f.2.ftype) = some TypeKind.object) :
    e.1 ∈ mgetD (collectDepsEntry tm deps e) (unwrapName f.2.ftype) [] := by
  unfold collectDepsEntry
  rw [if_neg (by simp [hk, hd])]
  obtain ⟨hview, hKE, hVE, hkeysE, _⟩ := ensure_entry_inv deps e.1 hK hV
  exact collectDepsFields_edge tm e.1 e.2.fields _ hKE hVE f hf hcond

theorem collectDeps_fold_inv (tm : SMap TypeDef) :
    ∀ (ts : List (String × TypeDef)) (deps : SMap (List String)),
      (mkeys deps).Nodup → (∀ p ∈ deps, List.Nodup p.2) →
      (mkeys (ts.foldl (collectDepsEntry tm) deps)).Nodup
      ∧ (∀ p ∈ ts.foldl (collectDepsEntry tm) deps, List.Nodup p.2)
      ∧ (∀ x ∈ mkeys deps, x ∈ mkeys (ts.foldl (collectDepsEntry tm) deps))
      ∧ (∀ b y, y ∈ mgetD deps b []
          → y ∈ mgetD (ts.foldl (collectDepsEntry tm) deps) b []) := by
  intro ts
  induction ts with
  | nil => intro deps hK hV; exact ⟨hK, hV, fun x hx => hx, fun b y hy => hy⟩
  | cons e rest ih =>
    intro deps hK hV
    rw [List.foldl_cons]
    have h1 := collectDepsEntry_inv tm deps e hK hV
    have h2 := ih (collectDepsEntry tm deps e) h1.1 h1.2.1
    exact ⟨h2.1, h2.2.1,
      fun x hx => h2.2.2.1 x (h1.2.2.1 x hx),
      fun b y hy => h2.2.2.2 b y (h1.2.2.2 b y hy)⟩

theorem collectDeps_inv (s : SchemaM) :
    (mkeys (collectDeps s)).Nodup ∧ (∀ p ∈ collectDeps s, List.Nodup p.2) := by
  have h := collectDeps_fold_inv s.typeMap s.typeMap [] (by simp) (by simp)
  exact ⟨h.1, h.2.1⟩

theorem collectDeps_key (s : SchemaM) (t : String) (td : TypeDef)
    (hmem : (t, td) ∈ s.typeMap) (hk : td.kind = TypeKind.object)
    (hd : startsDunder t = false) : t ∈ mkeys (collectDeps s) := by
  unfold collectDeps
  revert hmem
  have hgen : ∀ (ts : List (String × TypeDef)) (deps : SMap (List String)),
      (mkeys deps).Nodup → (∀ p ∈ deps, List.Nodup p.2) →
      (t, td) ∈ ts → t ∈ mkeys (ts.foldl (collectDepsEntry s.typeMap) deps) := by
    intro ts
    induction ts with
    | nil => intro deps _ _ h; simp at h
    | cons e rest ih =>
      intro deps hK hV hmem
      rw [List.foldl_cons]
      have h1 := collectDepsEntry_inv s.typeMap deps e hK hV
      rcases List.mem_cons.mp hmem with heq | hmem
      · subst heq
        have hkey := collectDepsEntry_key s.typeMap deps (t, td) hK hV hk hd
        have h2 := collectDeps_fold_inv s.typeMap rest
          (collectDepsEntry s.typeMap deps (t, td)) h1.1 h1.2.1
        exact h2.2.2.1 _ hkey
      · exact ih (collectDepsEntry s.typeMap deps e) h1.1 h1.2.1 hmem
  intro hmem
  exact hgen s.typeMap [] (by simp) (by simp) hmem

theorem collectDeps_edge (s : SchemaM) (t : String) (td : TypeDef)
    (hmem : (t, td) ∈ s.typeMap) (hk : td.kind = TypeKind.object)
    (hd : startsDunder t = false) (fn : String) (gf : GField)
    (hf : (fn, gf) ∈ td.fields)
    (hcond : lookupKind s.typeMap (unwrapName gf.ftype) = some TypeKind.object) :
    t ∈ mgetD (collectDeps s) (unwrapName gf.ftype) [] := by
  unfold collectDeps
  revert hmem
  have hgen : ∀ (ts : List (String × TypeDef)) (deps : SMap (List String)),
      (mkeys deps).Nodup → (∀ p ∈ deps, List.Nodup p.2) →
      (t, td) ∈ ts →
      t ∈ mgetD (ts.foldl (collectDepsEntry s.typeMap) deps) (unwrapName gf.ftype) [] := by
    intro ts
    induction ts with
    | nil => intro deps _ _ h; simp at h
    | cons e rest ih =>
      intro deps hK hV hmem
      rw [List.foldl_cons]
      have h1 := collectDepsEntry_inv s.typeMap deps e hK hV
      rcases List.mem_cons.mp hmem with heq | hmem
      · subst heq
        have hedge := collectDepsEntry_edge s.typeMap deps (t, td) hK hV hk hd
          (fn, gf) hf hcond
        have h2 := collectDeps_fold_inv s.typeMap rest
          (collectDepsEntry s.typeMap deps (t, td)) h1.1 h1.2.1
        exact h2.2.2.2 _ t hedge
      · exact ih (collectDepsEntry s.typeMap deps e) h1.1 h1.2.1 hmem
  intro hmem
  exact hgen s.typeMap [] (by simp) (by simp) hmem

/-- Claim C1: for every schema, cyclic or not, the order produced by
`topoOrder` over the dependency graph from `collectDeps` contains each
composite (object) type of the schema exactly once. -/
theorem claim1_order_totality (s : SchemaM) (t : String) (td : TypeDef)
    (hmem : (t, td) ∈ s.typeMap) (hk : td.kind = TypeKind.object)
    (hd : startsDunder t = false) :
    (topoOrder (collectDeps s)).count t = 1 := by
  obtain ⟨hdK, hdV⟩ := collectDeps_inv s
  obtain ⟨hnd, hmemiff, _⟩ := topoOrder_spec (collectDeps s) hdK hdV
  have hkey : t ∈ mkeys (collectDeps s) := collectDeps_key s t td hmem hk hd
  obtain ⟨_, _, _, _, _, _, hkdeps⟩ := initState_spec (collectDeps s) hdK hdV
  obtain ⟨v, hv⟩ := Option.isSome_iff_exists.mp
    ((mfind_isSome_iff_mem_mkeys _ t).mpr hkey)
  have hmem2 : (t, v) ∈ collectDeps s := mfind_eq_some_mem _ t v hv
  have htk : t ∈ mkeys (initState (collectDeps s)).1 := hkdeps (t, v) hmem2
  have htmem : t ∈ topoOrder (collectDeps s) := (hmemiff t).mpr htk
  exact count_eq_one_of_nodup_mem _ t hnd htmem

theorem claim1_witness :
    ("Author", (⟨TypeKind.object, [("name", ⟨WrapType.named "ID", []⟩)]⟩ : TypeDef))
        ∈ (SchemaM.mk wTm none none).typeMap
    ∧ (topoOrder (collectDeps ⟨wTm, none, none⟩)).count "Author" = 1 :=
  ⟨by decide,
   claim1_order_totality ⟨wTm, none, none⟩ "Author"
     ⟨TypeKind.object, [("name", ⟨WrapType.named "ID", []⟩)]⟩
     (by decide) (by decide) (by decide)⟩

/-- Claim C2 (amended): if type `a` has an object-typed field targeting `b`
and `a` is emitted during the queue-driven Kahn phase (before the cycle
fallback), then `b`'s index strictly precedes `a`'s index in the order
returned by `topoOrder`.  When `a` is only emitted by the fallback append,
the precedence can fail even for an acyclic pair (see the counterexample). -/
theorem claim2_edge_order (s : SchemaM) (a b : String) (tdA : TypeDef)
    (fn : String) (gf : GField)
    (hmem : (a, tdA) ∈ s.typeMap) (hk : tdA.kind = TypeKind.object)
    (hd : startsDunder a = false)
    (hf : (fn, gf) ∈ tdA.fields)
    (hb : unwrapName gf.ftype = b)
    (hob : lookupKind s.typeMap b = some TypeKind.object)
    (hqueue : a ∈ kahnPhaseOut (collectDeps s)) :
    ∃ i j : Nat, i < j ∧ (topoOrder (collectDeps s))[i]? = some b
      ∧ (topoOrder (collectDeps s))[j]? = some a := by
  obtain ⟨hdK, hdV⟩ := collectDeps_inv s
  obtain ⟨hnd, _, hedge⟩ := topoOrder_spec (collectDeps s) hdK hdV
  have he : a ∈ mgetD (collectDeps s) b [] := by
    subst hb
    exact collectDeps_edge s a tdA hmem hk hd fn gf hf hob
  exact pair_sublist_indices b a _ (hedge b a he hqueue)

theorem claim2_witness :
    ("Post", (⟨TypeKind.object, [("id", ⟨WrapType.named "ID", []⟩),
        ("author", ⟨WrapType.nonNull (WrapType.named "Author"), []⟩),
        ("media", ⟨WrapType.named "Media", []⟩)]⟩ : TypeDef))
        ∈ (SchemaM.mk wTm none none).typeMap
    ∧ "Post" ∈ kahnPhaseOut (collectDeps ⟨wTm, none, none⟩)
    ∧ ∃ i j : Nat, i < j
        ∧ (topoOrder (collectDeps ⟨wTm, none, none⟩))[i]? = some "Author"
        ∧ (topoOrder (collectDeps ⟨wTm, none, none⟩))[j]? = some "Post" :=
  ⟨by decide, by decide,
   claim2_edge_order ⟨wTm, none, none⟩ "Post" "Author"
     ⟨TypeKind.object, [("id", ⟨WrapType.named "ID", []⟩),
        ("author", ⟨WrapType.nonNull (WrapType.named "Author"), []⟩),
        ("media", ⟨WrapType.named "Media", []⟩)]⟩
     "author" ⟨WrapType.nonNull (WrapType.named "Author"), []⟩
     (by decide) (by decide) (by decide) (by decide) (by decide) (by decide) (by decide)⟩

/-- The direct composite dependencies of the type named `t`: the unwrapped
object-typed targets of its fields.  This formalizes the claim's notion
"`A` depends on `B`" (`A` has a composite field targeting `B`). -/
def directDeps (s : SchemaM) (t : String) : List String :=
  match mfind s.typeMap t with
  | some td =>
    td.fields.foldl (fun acc f =>
      let n := unwrapName f.2.ftype
      if lookupKind s.typeMap n = some TypeKind.object then addUniq acc n else acc) []
  | none => []

/-- One expansion step of the dependency closure. -/
def depsCloStep (s : SchemaM) (cur : List String) : List String :=
  cur.foldl (fun acc x => (directDeps s x).foldl addUniq acc) cur

/-- Iterated dependency-closure expansion. -/
def depsCloIter (s : SchemaM) : Nat → List String → List String
  | 0, cur => cur
  | n + 1, cur => depsCloIter s n (depsCloStep s cur)

/-- The relation `dependsOn s a b`: the type named `a` (transitively) depends on `b` —
the claim's acyclicity side condition.  The closure stabilizes within
`|typeMap|` expansion steps. -/
def dependsOn (s : SchemaM) (a b : String) : Bool :=
  (depsCloIter s (s.typeMap.length + 1) (directDeps s a)).contains b

/-- A field with the given unwrapped target type and no arguments. -/
def cexField (target : String) : GField := ⟨WrapType.named target, []⟩

/-- The type definition of `A` in the counterexample schema. -/
def cexA : TypeDef := ⟨TypeKind.object, [("bx", cexField "X"), ("bb", cexField "B")]⟩

/-- Counterexample schema for claim C2: `A` has fields targeting `X` and
`B`; `X` and `Y` form a 2-cycle; `B` is isolated. -/
def cexS : SchemaM :=
  ⟨[("A", cexA),
    ("B", ⟨TypeKind.object, []⟩),
    ("X", ⟨TypeKind.object, [("y", cexField "Y")]⟩),
    ("Y", ⟨TypeKind.object, [("x", cexField "X")]⟩)], none, none⟩

/-- Claim C2 as stated is false on `cexS`: `A` has an object-typed field
targeting `X`, `X` does not transitively depend on `A` (the pair is
acyclic), yet in the produced order (`[B, A, X, Y]`, with the cycle
fallback appending `A`, `X`, `Y`) `X`'s index does not precede `A`'s. -/
theorem claim2_counterexample :
    ("A", cexA) ∈ cexS.typeMap
    ∧ cexA.kind = TypeKind.object
    ∧ startsDunder "A" = false
    ∧ ("bx", cexField "X") ∈ cexA.fields
    ∧ unwrapName (cexField "X").ftype = "X"
    ∧ lookupKind cexS.typeMap "X" = some TypeKind.object
    ∧ dependsOn cexS "X" "A" = false
    ∧ topoOrder (collectDeps cexS) = ["B", "A", "X", "Y"]
    ∧ ¬ ∃ i j : Nat, i < j ∧ (topoOrder (collectDeps cexS))[i]? = some "X"
        ∧ (topoOrder (collectDeps cexS))[j]? = some "A" := by
  have hlist : topoOrder (collectDeps cexS) = ["B", "A", "X", "Y"] := by decide
  refine ⟨by decide, by decide, by decide, by decide, by decide, by decide, by decide,
    hlist, ?_⟩
  rintro ⟨i, j, hij, hi, hj⟩
  rw [hlist] at hi hj
  have hi2 : i = 2 := by
    match i with
    | 0 => exact absurd hi (by decide)
    | 1 => exact absurd hi (by decide)
    | 2 => rfl
    | 3 => exact absurd hi (by decide)
    | n + 4 =>
      rw [List.getElem?_eq_none (by simp)] at hi
      exact Option.noConfusion hi
  have hj1 : j = 1 := by
    match j with
    | 0 => exact absurd hj (by decide)
    | 1 => rfl
    | 2 => exact absurd hj (by decide)
    | 3 => exact absurd hj (by decide)
    | n + 4 =>
      rw [List.getElem?_eq_none (by simp)] at hj
      exact Option.noConfusion hj
  omega
